import Mathlib

/-!
Verification of the discrete-search and constraint-satisfaction core of the
ml-notebooks repository.  The first part embeds the 8-puzzle search notebook
(generic `Problem` / `Node` data model, breadth-first search, iterative
deepening search, A* search with a binary-heap frontier); the second part
embeds the N-Queens CSP notebook (min-conflicts local search and
heuristic-ordered backtracking helpers).  Python while-loops are embedded as
fuel-indexed recursion; Python dicts appear as insertion-ordered association
lists; the numpy random draws are supplied as explicit oracle parameters.
-/

/-! ## Generic search data model (8-puzzle notebook, cell 1) -/

/-- Search node: mirrors the notebook's `Node` class with fields
`state`, `parent`, `action`, `path_cost`, `depth`, `f`. -/
inductive Node (σ α : Type) : Type where
  | mk (state : σ) (parent : Option (Node σ α)) (action : Option α)
      (path_cost : Nat) (depth : Nat) (f : Nat)

def Node.state {σ α : Type} : Node σ α → σ
  | .mk s _ _ _ _ _ => s

def Node.parent {σ α : Type} : Node σ α → Option (Node σ α)
  | .mk _ p _ _ _ _ => p

def Node.action {σ α : Type} : Node σ α → Option α
  | .mk _ _ a _ _ _ => a

def Node.path_cost {σ α : Type} : Node σ α → Nat
  | .mk _ _ _ c _ _ => c

def Node.depth {σ α : Type} : Node σ α → Nat
  | .mk _ _ _ _ d _ => d

def Node.f {σ α : Type} : Node σ α → Nat
  | .mk _ _ _ _ _ f => f

/-- Mirrors `Node.__init__`: `depth` is `0` for a root and `parent.depth + 1`
otherwise, and `f` is initialised to `path_cost`. -/
def Node.init {σ α : Type} (state : σ) (parent : Option (Node σ α))
    (action : Option α) (path_cost : Nat) : Node σ α :=
  Node.mk state parent action path_cost
    (match parent with
     | some p => p.depth + 1
     | none => 0)
    path_cost

/-- Generic problem interface consumed by the search algorithms; the notebook
passes its duck-typed `Problem` object, whose `h(state, func)` dispatch is
absorbed into the single field `h`. -/
structure SProblem (σ α : Type) where
  start : σ
  is_goal_state : σ → Bool
  actions : σ → List α
  result : σ → α → σ
  h : σ → Nat

/-- Mirrors `Node.child_node`. -/
def Node.child_node {σ α : Type} (self : Node σ α) (problem : SProblem σ α)
    (action : α) : Node σ α :=
  Node.init (problem.result self.state action) (some self) (some action)
    (self.path_cost + 1)

/-- Accumulator loop of `solution`: append the node, walk to the parent,
finally append the root and reverse. -/
def solutionAcc {σ α : Type} : Node σ α → List (Node σ α) → List (Node σ α)
  | Node.mk s (some p) a c d f, res => solutionAcc p (res ++ [Node.mk s (some p) a c d f])
  | Node.mk s none a c d f, res => (res ++ [Node.mk s none a c d f]).reverse

/-- Mirrors the notebook's `solution(node)`. -/
def solution {σ α : Type} (node : Node σ α) : List (Node σ α) :=
  solutionAcc node []

/-- Declarative root-to-node order of a parent chain
(the sequence described by the spec for `reconstruct_path`). -/
def rootToList {σ α : Type} : Node σ α → List (Node σ α)
  | Node.mk s none a c d f => [Node.mk s none a c d f]
  | Node.mk s (some p) a c d f => rootToList p ++ [Node.mk s (some p) a c d f]

/-- Outcome of a search: the notebook returns either a list of nodes, the
string 'cutoff', or the string 'failure'. -/
inductive SearchRes (σ α : Type) where
  | path (nodes : List (Node σ α))
  | cutoff
  | failure

/-! ## Breadth-first search (8-puzzle notebook, cell 2) -/

/-- Inner for-loop of `breadth_first_search` over the popped node's actions:
either returns a solution early (goal generated) or the extended frontier. -/
def bfsChildLoop {σ α : Type} [DecidableEq σ] (problem : SProblem σ α)
    (node : Node σ α) (explored : List σ) (frontier : List (Node σ α)) :
    List α → SearchRes σ α ⊕ List (Node σ α)
  | [] => Sum.inr frontier
  | a :: rest =>
    let child := node.child_node problem a
    if child.state ∉ explored ∧ frontier.all (fun n => n.state ≠ child.state) then
      if problem.is_goal_state child.state then Sum.inl (SearchRes.path (solution child))
      else bfsChildLoop problem node explored (frontier ++ [child]) rest
    else bfsChildLoop problem node explored frontier rest

/-- While-loop of `breadth_first_search`, as fuel recursion; running out of
fuel returns `failure` (the loop in the source is finite on finite problems). -/
def bfsLoop {σ α : Type} [DecidableEq σ] (problem : SProblem σ α) :
    Nat → List (Node σ α) → List σ → SearchRes σ α
  | 0, _, _ => SearchRes.failure
  | _ + 1, [], _ => SearchRes.failure
  | fuel + 1, node :: rest, explored =>
    let explored' := node.state :: explored
    if node.depth ≤ 10 then
      match bfsChildLoop problem node explored' rest (problem.actions node.state) with
      | Sum.inl r => r
      | Sum.inr frontier' => bfsLoop problem fuel frontier' explored'
    else bfsLoop problem fuel rest explored'

/-- Mirrors `breadth_first_search(problem)` (the `print` diagnostics are
side channels and are dropped). -/
def breadth_first_search {σ α : Type} [DecidableEq σ] (problem : SProblem σ α)
    (fuel : Nat) : SearchRes σ α :=
  let node : Node σ α := Node.init problem.start none none 0
  if problem.is_goal_state node.state then SearchRes.path (solution node)
  else bfsLoop problem fuel [node] []

/-! ## Iterative deepening search (8-puzzle notebook, cell 3) -/

/-- For-loop of `recursive_dls` over actions; the recursive call at
`limit - 1` is supplied as the function `rec_`, and `cutoff_occured` is the
boolean flag of the source. -/
def dlsLoop {σ α : Type} (problem : SProblem σ α) (node : Node σ α)
    (rec_ : Node σ α → SearchRes σ α) : List α → Bool → SearchRes σ α
  | [], cutoff_occured =>
    if cutoff_occured then SearchRes.cutoff else SearchRes.failure
  | a :: rest, cutoff_occured =>
    let child := node.child_node problem a
    match rec_ child with
    | SearchRes.cutoff => dlsLoop problem node rec_ rest true
    | SearchRes.failure => dlsLoop problem node rec_ rest cutoff_occured
    | r => r

/-- Mirrors `recursive_dls(node, problem, limit)` (the goal test precedes the
limit test, so the two are merged into recursion on `limit`). -/
def recursive_dls {σ α : Type} (problem : SProblem σ α) (node : Node σ α) :
    Nat → SearchRes σ α
  | 0 =>
    if problem.is_goal_state node.state then SearchRes.path (solution node)
    else SearchRes.cutoff
  | limit + 1 =>
    if problem.is_goal_state node.state then SearchRes.path (solution node)
    else dlsLoop problem node (fun child => recursive_dls problem child limit)
      (problem.actions node.state) false

/-- Mirrors `depth_limited_search(problem, limit)`. -/
def depth_limited_search {σ α : Type} (problem : SProblem σ α) (limit : Nat) :
    SearchRes σ α :=
  recursive_dls problem (Node.init problem.start none none 0) limit

/-- For-loop of `iterative_deepening_search` over the list of depths. -/
def idsLoop {σ α : Type} (problem : SProblem σ α) :
    List Nat → Option (SearchRes σ α)
  | [] => none
  | d :: rest =>
    match depth_limited_search problem d with
    | SearchRes.cutoff => idsLoop problem rest
    | r => some r

/-- Mirrors `iterative_deepening_search(problem)`: tries `range(10)` and
implicitly returns `None` when every limit was a cutoff. -/
def iterative_deepening_search {σ α : Type} (problem : SProblem σ α) :
    Option (SearchRes σ α) :=
  idsLoop problem (List.range 10)

/-! ## A* search (8-puzzle notebook, cell 4) and the `heapq` frontier

The notebook keeps the frontier as a Python list manipulated through
`heapq.heappush` / `heapq.heappop`; those two functions (with their helpers
`_siftdown` and `_siftup`) are reproduced here on `List`, parameterised by the
comparison `lt` (the notebook's `Node.__lt__`, i.e. comparison of `f`) and a
default element `dflt` used for the always-in-bounds list reads. -/

/-- The bubble-up loop of `heapq._siftdown(heap, startpos, pos)`; `newitem`
is `heap[pos]` at entry time.  The loop strictly decreases `pos`, so a fuel
of at least `pos + 1` (callers pass the list length) reproduces it exactly;
the fuel is only a structural-recursion device. -/
def siftdownAux {α : Type} (lt : α → α → Bool) (dflt : α) :
    Nat → List α → Nat → α → Nat → List α
  | 0, heap, _, newitem, pos => heap.set pos newitem
  | fuel + 1, heap, startpos, newitem, pos =>
    if startpos < pos then
      let parentpos := (pos - 1) / 2
      let parent := heap.getD parentpos dflt
      if lt newitem parent then
        siftdownAux lt dflt fuel (heap.set pos parent) startpos newitem parentpos
      else heap.set pos newitem
    else heap.set pos newitem

/-- Mirrors `heapq.heappush`. -/
def heappush {α : Type} (lt : α → α → Bool) (dflt : α) (heap : List α)
    (item : α) : List α :=
  let h := heap ++ [item]
  siftdownAux lt dflt h.length h 0 item (h.length - 1)

/-- The descend-to-leaf loop of `heapq._siftup(heap, pos)`; returns the heap
after shifting the smaller children up, together with the final position.
The loop strictly increases `pos` below the length, so a fuel of the list
length reproduces it exactly. -/
def siftupLoop {α : Type} (lt : α → α → Bool) (dflt : α) :
    Nat → List α → Nat → List α × Nat
  | 0, heap, pos => (heap, pos)
  | fuel + 1, heap, pos =>
    let childpos := 2 * pos + 1
    if childpos < heap.length then
      let rightpos := childpos + 1
      let childpos :=
        if rightpos < heap.length ∧ ¬ lt (heap.getD childpos dflt) (heap.getD rightpos dflt)
        then rightpos else childpos
      siftupLoop lt dflt fuel (heap.set pos (heap.getD childpos dflt)) childpos
    else (heap, pos)

/-- Mirrors `heapq._siftup(heap, pos)`: descend, then bubble the item back up
with `_siftdown`.  (`_siftdown` never reads index `pos` before writing it, so
the intermediate write of `newitem` at the final position is elided.) -/
def siftup {α : Type} (lt : α → α → Bool) (dflt : α) (heap : List α)
    (pos : Nat) : List α :=
  let newitem := heap.getD pos dflt
  let hp := siftupLoop lt dflt heap.length heap pos
  siftdownAux lt dflt hp.1.length hp.1 pos newitem hp.2

/-- Mirrors `heapq.heappop` (Python raises on an empty list; here `none`). -/
def heappop {α : Type} (lt : α → α → Bool) (dflt : α) (heap : List α) :
    Option (α × List α) :=
  match heap.getLast? with
  | none => none
  | some lastelt =>
    let heap := heap.dropLast
    if heap.length > 0 then
      let returnitem := heap.getD 0 dflt
      let heap := heap.set 0 lastelt
      some (returnitem, siftup lt dflt heap 0)
    else some (lastelt, heap)

/-- The notebook's `Node.__lt__`: comparison by `f`. -/
def nodeLt {σ α : Type} (a b : Node σ α) : Bool := a.f < b.f

/-- Python's `list.remove(el)` where `el` compares by `Node.__eq__`
(state equality): drop the first node with the given state. -/
def removeFirstState {σ α : Type} [DecidableEq σ] (l : List (Node σ α)) (s : σ) :
    List (Node σ α) :=
  match l with
  | [] => []
  | n :: rest => if n.state = s then rest else n :: removeFirstState rest s

/-- The `for el in frontier` replacement scan of `astar_search`: Python
iterates by index over the list it is mutating; one remove-plus-push keeps the
length unchanged, so `fuel` (called with the frontier length) covers the scan. -/
def astarReplaceLoop {σ α : Type} [DecidableEq σ] (dflt : Node σ α)
    (frontier : List (Node σ α)) (child : Node σ α) (i : Nat) : Nat → List (Node σ α)
  | 0 => frontier
  | fuel + 1 =>
    if i < frontier.length then
      let el := frontier.getD i dflt
      if el.state = child.state ∧ child.f < el.f then
        astarReplaceLoop dflt
          (heappush nodeLt dflt (removeFirstState frontier el.state) child)
          child (i + 1) fuel
      else astarReplaceLoop dflt frontier child (i + 1) fuel
    else frontier

/-- Inner for-loop of `astar_search` over the popped node's actions: each
child gets `f = path_cost + h(state)`, fresh states are pushed, and an
in-frontier state with a worse `f` is replaced. -/
def astarChildLoop {σ α : Type} [DecidableEq σ] (problem : SProblem σ α)
    (dflt : Node σ α) (node : Node σ α) (explored : List σ) :
    List (Node σ α) → List α → List (Node σ α)
  | frontier, [] => frontier
  | frontier, a :: rest =>
    let child := node.child_node problem a
    let child := match child with
      | Node.mk s p act c d _ => Node.mk s p act c d (c + problem.h s)
    let frontier :=
      if child.state ∉ explored ∧ frontier.all (fun el => el.state ≠ child.state) then
        heappush nodeLt dflt frontier child
      else if frontier.any (fun el => el.state = child.state) then
        astarReplaceLoop dflt frontier child 0 frontier.length
      else frontier
    astarChildLoop problem dflt node explored frontier rest

/-- While-loop of `astar_search`, as fuel recursion. -/
def astarLoop {σ α : Type} [DecidableEq σ] (problem : SProblem σ α)
    (dflt : Node σ α) : Nat → List (Node σ α) → List σ → SearchRes σ α
  | 0, _, _ => SearchRes.failure
  | fuel + 1, frontier, explored =>
    match heappop nodeLt dflt frontier with
    | none => SearchRes.failure
    | some (node, fr) =>
      if problem.is_goal_state node.state then SearchRes.path (solution node)
      else
        let explored' := node.state :: explored
        if node.depth ≤ 10 then
          astarLoop problem dflt fuel
            (astarChildLoop problem dflt node explored' fr (problem.actions node.state))
            explored'
        else astarLoop problem dflt fuel fr explored'

/-- The root node of `astar_search` after the statement
`node.path_cost = 0 + problem.h(node.state, heuristic)`: the source assigns
the root's `f = g + h` value to `path_cost` (leaving `f` at `0`). -/
def astarRoot {σ α : Type} (problem : SProblem σ α) : Node σ α :=
  match Node.init problem.start none none 0 with
  | Node.mk s p a _ d f => Node.mk s p a (0 + problem.h s) d f

/-- Mirrors `astar_search(problem, heuristic)`. -/
def astar_search {σ α : Type} [DecidableEq σ] (problem : SProblem σ α)
    (fuel : Nat) : SearchRes σ α :=
  let node := astarRoot problem
  if problem.is_goal_state node.state then SearchRes.path (solution node)
  else astarLoop problem (Node.init problem.start none none 0) fuel
    (heappush nodeLt (Node.init problem.start none none 0) [] node) []

/-! ## The 8-puzzle problem instance (notebook `Problem` class) -/

namespace Puzzle

/-- The four blank-tile moves. -/
inductive Act where
  | left
  | right
  | up
  | down
deriving DecidableEq

/-- Mirrors `Problem.actions(state)`: start from all four moves and remove the
illegal ones by position of the blank tile (`list.remove` is `List.erase`). -/
def actions (state : List Nat) : List Act :=
  let ix := state.indexOf 0
  let acts := [Act.left, Act.right, Act.up, Act.down]
  let acts := if ix % 3 = 0 then acts.erase Act.left else acts
  let acts := if ix < 3 then acts.erase Act.up else acts
  let acts := if ix % 3 = 2 then acts.erase Act.right else acts
  let acts := if ix > 5 then acts.erase Act.down else acts
  acts

/-- The erase chain of `Problem.actions` as a function of the blank index
(definitionally, `actions state = actsFor (state.indexOf 0)`). -/
def actsFor (ix : Nat) : List Act :=
  let acts := [Act.left, Act.right, Act.up, Act.down]
  let acts := if ix % 3 = 0 then acts.erase Act.left else acts
  let acts := if ix < 3 then acts.erase Act.up else acts
  let acts := if ix % 3 = 2 then acts.erase Act.right else acts
  let acts := if ix > 5 then acts.erase Act.down else acts
  acts

/-- The `change` dictionary of `Problem.result`. -/
def change : Act → Int
  | Act.left => -1
  | Act.right => 1
  | Act.up => -3
  | Act.down => 3

/-- Python list indexing: a negative index wraps by the list length. -/
def pyIx (len : Nat) (i : Int) : Nat :=
  (if i < 0 then i + len else i).toNat

/-- Mirrors `Problem.result(state, action)`: swap the blank tile with the
adjacent tile. -/
def result (state : List Nat) (action : Act) : List Nat :=
  let blank_ix := state.indexOf 0
  let adjacent_ix : Int := (blank_ix : Int) + change action
  let aIx := pyIx state.length adjacent_ix
  (state.set blank_ix (state.getD aIx 0)).set aIx (state.getD blank_ix 0)

/-- Mirrors `Problem.h(state, None)`: the number of tiles at an incorrect
location. -/
def h (goal state : List Nat) : Nat :=
  (List.range state.length).countP (fun i => state.getD i 0 ≠ goal.getD i 0)

/-- Mirrors `get_2d_index(i)`. -/
def get_2d_index (i : Nat) : Nat × Nat :=
  if i ≤ 2 then (0, i) else if i ≤ 5 then (1, i - 3) else (2, i - 6)

/-- Mirrors `dist(ix1, ix2)`. -/
def dist (ix1 ix2 : Nat) : Nat :=
  let p1 := get_2d_index ix1
  let p2 := get_2d_index ix2
  ((p2.1 : Int) - p1.1).natAbs + ((p2.2 : Int) - p1.2).natAbs

/-- Mirrors `manhattan_distance(state, goal)`. -/
def manhattan_distance (goal state : List Nat) : Nat :=
  (state.enum.map (fun p => dist p.1 (goal.indexOf p.2))).sum

/-- Packages the notebook's `Problem(start, goal)` with its default heuristic
for the generic search functions. -/
def problem (start goal : List Nat) : SProblem (List Nat) Act :=
  { start := start
    is_goal_state := fun s => s = goal
    actions := actions
    result := result
    h := h goal }

end Puzzle

/-! ## N-Queens CSP (N-Queens notebook `NQueens` class)

Variables and values are Python ints (`Int` here: the neighbor expressions
`var - 1` / `var + 1` can leave `[0, N)`); a dict is an insertion-ordered
association list, and the `defaultdict(list)` cache is a total function with
default `[]`.  The numpy draws (`randint` initialisation, `choice` of a
conflicted variable) are supplied as explicit oracle parameters. -/

namespace NQueens

/-- Dict key membership `k in assignment`. -/
def hasKey (assignment : List (Int × Int)) (k : Int) : Bool :=
  assignment.any (fun kv => kv.1 = k)

/-- Python dict item assignment `d[k] = v`: update in place if the key
exists (insertion order kept), else append. -/
def dictSet (assignment : List (Int × Int)) (k v : Int) : List (Int × Int) :=
  if hasKey assignment k then
    assignment.map (fun kv => if kv.1 = k then (k, v) else kv)
  else assignment ++ [(k, v)]

/-- Mirrors `is_complete(assignment)`. -/
def is_complete (N : Nat) (assignment : List (Int × Int)) : Bool :=
  assignment.length = N

/-- Mirrors `is_conflict(x1, x2, y1, y2)`. -/
def is_conflict (x1 x2 y1 y2 : Int) : Bool :=
  x1 = x2 || y1 = y2 || (x1 - x2).natAbs = (y1 - y2).natAbs

/-- Mirrors `is_consistent(var, val, assignment)`. -/
def is_consistent (var val : Int) (assignment : List (Int × Int)) : Bool :=
  assignment.all (fun kv => kv.1 = var || ! is_conflict kv.1 var kv.2 val)

/-- Mirrors `n_conflicts(var, val, assignment)`. -/
def n_conflicts (var val : Int) (assignment : List (Int × Int)) : Nat :=
  (assignment.filter (fun kv => kv.1 ≠ var)).countP
    (fun kv => is_conflict var kv.1 val kv.2)

/-- Mirrors `conflicted_vars(assignment)` (keys in dict order). -/
def conflicted_vars (assignment : List (Int × Int)) : List Int :=
  (assignment.filter (fun kv => ! is_consistent kv.1 kv.2 assignment)).map Prod.fst

/-- Mirrors `is_solution(assignment)`. -/
def is_solution (N : Nat) (assignment : List (Int × Int)) : Bool :=
  is_complete N assignment && (conflicted_vars assignment).length = 0

/-- The domain `range(self.N)` as Python ints. -/
def domain (N : Nat) : List Int :=
  (List.range N).map Int.ofNat

/-- The `for val in range(self.N)` scan of `min_conflicts_val`, carrying the
running `metric` and `value`. -/
def mcvLoop (var : Int) (assignment : List (Int × Int)) (values_tried : List Int) :
    List Int → Nat → Int → Int
  | [], _, value => value
  | v :: rest, metric, value =>
    if v ∉ values_tried then
      let num := n_conflicts var v assignment
      if num ≤ metric then mcvLoop var assignment values_tried rest num v
      else mcvLoop var assignment values_tried rest metric value
    else mcvLoop var assignment values_tried rest metric value

/-- Mirrors `min_conflicts_val(var, assignment)`; the second component is the
post-reset `values_tried` list that the source stores back into the cache. -/
def min_conflicts_val (N : Nat) (var : Int) (assignment : List (Int × Int))
    (cacheVar : List Int) : Int × List Int :=
  let values_tried := if cacheVar.length = N then [] else cacheVar
  (mcvLoop var assignment values_tried (domain N) N (-1), values_tried)

/-- Pointwise update of the `defaultdict(list)` cache. -/
def cacheUpd (cache : Int → List Int) (k : Int) (l : List Int) : Int → List Int :=
  fun x => if x = k then l else cache x

/-- Result of `min_conflicts_solver`: the solved assignment or the failure
string after `max_steps` iterations. -/
inductive MCResult where
  | ok (assignment : List (Int × Int))
  | failure

/-- Mirrors the `min_conflicts_solver` loop; `steps` counts the remaining
iterations of `range(max_steps)`, `n_iter` the current index, and
`rand n_iter` selects the `np.random.choice` element by index. -/
def mcLoop (N : Nat) (rand : Nat → Nat) :
    Nat → Nat → List (Int × Int) → (Int → List Int) → MCResult
  | 0, _, _, _ => MCResult.failure
  | steps + 1, n_iter, assignment, cache =>
    if is_solution N assignment then MCResult.ok assignment
    else
      let cvars := conflicted_vars assignment
      let var := cvars.getD (rand n_iter % cvars.length) 0
      let mc := min_conflicts_val N var assignment (cache var)
      let cache := cacheUpd cache var mc.2
      let assignment := dictSet assignment var mc.1
      let cache := cacheUpd cache var (mc.2 ++ [mc.1])
      mcLoop N rand steps (n_iter + 1) assignment cache

/-- The `__init__` assignment `{i: np.random.randint(0, N) for i in range(N)}`
with the random draws supplied by `a0`. -/
def initAssignment (N : Nat) (a0 : Nat → Int) : List (Int × Int) :=
  (List.range N).map (fun i => (Int.ofNat i, a0 i))

/-- The `__init__` cache: each variable's initial value is recorded. -/
def initCache (N : Nat) (a0 : Nat → Int) : Int → List Int :=
  fun k => if 0 ≤ k ∧ k < N then [a0 k.toNat] else []

/-- Mirrors `min_conflicts_solver(max_steps)` run from a fresh `NQueens(N)`. -/
def min_conflicts_solver (N : Nat) (a0 : Nat → Int) (rand : Nat → Nat)
    (max_steps : Nat) : MCResult :=
  mcLoop N rand max_steps 0 (initAssignment N a0) (initCache N a0)

/-- Mirrors `remaining_legal_values(var, assignment)`. -/
def remaining_legal_values (N : Nat) (var : Int) (assignment : List (Int × Int)) :
    List Int :=
  (domain N).filter (fun val => is_consistent var val assignment)

/-- The `for k, v in unassigned[1:]` scan of `select_unassigned_variable`. -/
def suvLoop : Int × List Int → List (Int × List Int) → Int × List Int
  | cur, [] => cur
  | cur, (k, v) :: rest =>
    if v.length ≤ cur.2.length then suvLoop (k, v) rest else suvLoop cur rest

/-- Mirrors `select_unassigned_variable(assignment)` (Python raises
`IndexError` when every variable is assigned; that impossible case returns
the dummy pair here). -/
def select_unassigned_variable (N : Nat) (assignment : List (Int × Int)) :
    Int × List Int :=
  let unassigned := ((domain N).filter (fun var => ! hasKey assignment var)).map
    (fun var => (var, remaining_legal_values N var assignment))
  match unassigned with
  | [] => (-1, [])
  | first :: rest => suvLoop first rest

/-- Mirrors `n_choices_ruled_out(var, val, neighbor, assignment)`. -/
def n_choices_ruled_out (N : Nat) (var val neighbor : Int)
    (assignment : List (Int × Int)) : Nat :=
  (remaining_legal_values N neighbor assignment).countP
    (fun v => is_conflict var neighbor val v)

/-- Stable sort by count: models Python's stable `sorted(result, key=...)`
(insertion sort places each element before later-listed equals, and any two
stable sorts under one key agree pointwise). -/
def stableSortBy (l : List (Int × Nat)) : List (Int × Nat) :=
  List.insertionSort (fun a b => a.2 ≤ b.2) l

/-- The exact neighbor list kept by `order_domain_values`: the `elif` means
that when both neighbors are assigned only `var - 1` is removed. -/
def odvNeighbors (var : Int) (assignment : List (Int × Int)) : List Int :=
  let neighbors := [var - 1, var + 1]
  if hasKey assignment (var - 1) then neighbors.erase (var - 1)
  else if hasKey assignment (var + 1) then neighbors.erase (var + 1)
  else neighbors

/-- Mirrors `order_domain_values(var, values, assignment)` (the source's
`metric = 2 * self.N` is assigned but never used). -/
def order_domain_values (N : Nat) (var : Int) (values : List Int)
    (assignment : List (Int × Int)) : List Int :=
  let neighbors := odvNeighbors var assignment
  let result := values.map (fun val =>
    (val, (neighbors.map (fun nb => n_choices_ruled_out N var val nb assignment)).sum))
  (stableSortBy result).map Prod.fst

/-- The value ordering described by the claim for C6, written from its words:
the ruled-out counts are summed over exactly those of the two neighbors
`var - 1`, `var + 1` that are not already assigned. -/
def order_domain_values_claim (N : Nat) (var : Int) (values : List Int)
    (assignment : List (Int × Int)) : List Int :=
  let neighbors := [var - 1, var + 1].filter (fun nb => ! hasKey assignment nb)
  let result := values.map (fun val =>
    (val, (neighbors.map (fun nb => n_choices_ruled_out N var val nb assignment)).sum))
  (stableSortBy result).map Prod.fst

end NQueens

/-! ## Path predicates and validity notions used to state the claims -/

/-- Discriminator for the 'cutoff' outcome. -/
def SearchRes.isCutoff {σ α : Type} : SearchRes σ α → Bool
  | SearchRes.cutoff => true
  | _ => false

/-- Number of actions of a returned path (the root carries `none`). -/
def SearchRes.actionCount {σ α : Type} : SearchRes σ α → Option Nat
  | SearchRes.path l => some (l.filterMap Node.action).length
  | _ => none

/-- The node list of a returned path (empty for the other outcomes). -/
def resNodes {σ α : Type} : SearchRes σ α → List (Node σ α)
  | SearchRes.path l => l
  | _ => []

/-- The actions recorded along a node list. -/
def pathActions {σ α : Type} (l : List (Node σ α)) : List α :=
  l.filterMap Node.action

/-- An action sequence is legal from `s` when each step is offered by
`problem.actions` at the state it is applied to. -/
def legalFrom {σ α : Type} [DecidableEq α] (problem : SProblem σ α) :
    σ → List α → Bool
  | _, [] => true
  | s, a :: rest =>
    (problem.actions s).contains a && legalFrom problem (problem.result s a) rest

/-- The state an action sequence leads to. -/
def runPath {σ α : Type} (problem : SProblem σ α) (s : σ) (acts : List α) : σ :=
  acts.foldl problem.result s

/-- An action sequence from the start state to a goal state. -/
def LeadsToGoal {σ α : Type} [DecidableEq α] (problem : SProblem σ α)
    (acts : List α) : Prop :=
  legalFrom problem problem.start acts = true ∧
  problem.is_goal_state (runPath problem problem.start acts) = true

/-- Admissibility of the problem's heuristic: `h s` never exceeds the length
of any legal action sequence from `s` to a goal state (hence never the true
minimum remaining step cost; every step of the embedded problems costs 1). -/
def Admissible {σ α : Type} [DecidableEq α] (problem : SProblem σ α) : Prop :=
  ∀ (s : σ) (acts : List α), legalFrom problem s acts = true →
    problem.is_goal_state (runPath problem s acts) = true →
    problem.h s ≤ acts.length

/-- Provenance check of a node: its parent chain starts at a root for
`problem.start` (with no recorded action) and each link records a legal
action together with the state `problem.result` produces for it.  The
numeric fields are ignored, so this is stable under the `f`/`path_cost`
updates `astar_search` performs. -/
def chainOk {σ α : Type} [DecidableEq σ] [DecidableEq α]
    (problem : SProblem σ α) : Node σ α → Bool
  | Node.mk s none a _ _ _ => s = problem.start ∧ a = (none : Option α)
  | Node.mk s (some p) (some a) _ _ _ =>
    chainOk problem p && (problem.actions p.state).contains a &&
      s = problem.result p.state a
  | Node.mk _ (some _) none _ _ _ => false

/-- Nodes reachable from the root `Node(problem.start)` by repeated
`child_node` applications. -/
inductive ReachN {σ α : Type} (problem : SProblem σ α) : Node σ α → Prop where
  | root : ReachN problem (Node.init problem.start none none 0)
  | child (n : Node σ α) (a : α) : ReachN problem n →
      ReachN problem (n.child_node problem a)

/-- All states visited by an action sequence (the final one included) fail
the goal test. -/
def allNonGoal {σ α : Type} (problem : SProblem σ α) : σ → List α → Bool
  | s, [] => ! problem.is_goal_state s
  | s, a :: rest =>
    ! problem.is_goal_state s && allNonGoal problem (problem.result s a) rest

/-- The state `s` is reached from the start by a legal, goal-avoiding action
sequence of length `n`. -/
def NGReach {σ α : Type} [DecidableEq α] (problem : SProblem σ α) (n : Nat)
    (s : σ) : Prop :=
  ∃ acts : List α, acts.length = n ∧ legalFrom problem problem.start acts = true ∧
    allNonGoal problem problem.start acts = true ∧ runPath problem problem.start acts = s

/-- Full validity of a BFS node: its recorded chain is a legal, goal-avoiding
action sequence from the start reaching its state, and its `depth` equals
the chain length. -/
def NGNode {σ α : Type} [DecidableEq α] (problem : SProblem σ α)
    (n : Node σ α) : Prop :=
  legalFrom problem problem.start (pathActions (rootToList n)) = true ∧
  allNonGoal problem problem.start (pathActions (rootToList n)) = true ∧
  runPath problem problem.start (pathActions (rootToList n)) = n.state ∧
  (pathActions (rootToList n)).length = n.depth

/-- Loop invariant of `breadth_first_search`: frontier nodes are valid and
sorted within two consecutive depth levels, no goal state is stored anywhere,
every goal-avoiding reachable state at distance below (resp. up to) the
current frontier level is already explored (resp. discovered), frontier
depths are minimal distances, and explored states within the depth cap have
been fully expanded with no goal child. -/
structure BFSInv {σ α : Type} [DecidableEq σ] [DecidableEq α]
    (problem : SProblem σ α) (frontier : List (Node σ α)) (explored : List σ) :
    Prop where
  valid : ∀ n ∈ frontier, NGNode problem n
  sorted : List.Pairwise (fun a b : Node σ α => a.depth ≤ b.depth) frontier
  twoLevel : ∀ hd, frontier.head? = some hd → ∀ n ∈ frontier, n.depth ≤ hd.depth + 1
  startNonGoal : problem.is_goal_state problem.start = false
  noGoalExplored : ∀ s ∈ explored, problem.is_goal_state s = false
  covered : ∀ (s : σ) (k : Nat), NGReach problem k s → k ≤ 11 →
    (∀ hd, frontier.head? = some hd → k ≤ hd.depth) →
    s ∈ explored ∨ s ∈ frontier.map Node.state
  coveredE : ∀ (s : σ) (k : Nat), NGReach problem k s → k ≤ 10 →
    (∀ hd, frontier.head? = some hd → k < hd.depth) →
    s ∈ explored
  minDepth : ∀ n ∈ frontier, ∀ (k : Nat) (s : σ), NGReach problem k s →
    n.state = s → n.depth ≤ k
  expandedGoalFree : ∀ s ∈ explored, (∃ k, k ≤ 10 ∧ NGReach problem k s) →
    ∀ a ∈ problem.actions s, problem.is_goal_state (problem.result s a) = false
  expandedClosed : ∀ s ∈ explored, (∃ k, k ≤ 10 ∧ NGReach problem k s) →
    ∀ a ∈ problem.actions s,
      problem.result s a ∈ explored ∨ problem.result s a ∈ frontier.map Node.state

/-! ## Concrete instances used by the claims -/

/-- The notebook's test start state. -/
def puzzleStart : List Nat := [2, 4, 3, 1, 5, 6, 7, 8, 0]

/-- The notebook's test goal state. -/
def puzzleGoal : List Nat := [1, 2, 3, 4, 5, 6, 7, 8, 0]

/-- The notebook's test problem with its default heuristic. -/
def puzzle8 : SProblem (List Nat) Puzzle.Act :=
  Puzzle.problem puzzleStart puzzleGoal

/-- A sample node produced from the notebook problem's root by one
`child_node` application. -/
def c8Node : Node (List Nat) Puzzle.Act :=
  (Node.init puzzle8.start none none 0).child_node puzzle8 Puzzle.Act.left

/-- An 8-puzzle instance one move away from the goal (blank at index 7;
moving it right solves the puzzle). -/
def puzzleEasy : SProblem (List Nat) Puzzle.Act :=
  Puzzle.problem [1, 2, 3, 4, 5, 6, 7, 0, 8] puzzleGoal

/-- One-state problem with a self-loop and an unsatisfiable goal test: every
depth-limited search on it is a cutoff. -/
def loopProblem : SProblem (Fin 1) Nat :=
  { start := 0
    is_goal_state := fun _ => false
    actions := fun _ => [0]
    result := fun s _ => s
    h := fun _ => 0 }

/-- States of the admissible-but-inconsistent counterexample problem:
0 = start, 6 = goal; the two routes to state 4 have lengths 2 (via 1) and
3 (via 2, 3). -/
def cexActions (s : Fin 7) : List Nat :=
  if s.val = 0 then [0, 1] else if s.val = 6 then [] else [0]

/-- Transition function of the counterexample problem. -/
def cexResult (s : Fin 7) (a : Nat) : Fin 7 :=
  if s.val = 0 then (if a = 0 then 1 else 2)
  else if s.val = 1 then 4
  else if s.val = 2 then 3
  else if s.val = 3 then 4
  else if s.val = 4 then 5
  else if s.val = 5 then 6
  else s

/-- Heuristic of the counterexample problem: admissible everywhere (values
never exceed the true remaining distances) but inconsistent at state 1,
where `h 1 = 3 > 1 + h 4 = 1`. -/
def cexH (s : Fin 7) : Nat :=
  [0, 3, 0, 0, 0, 1, 0].getD s.val 0

/-- True remaining distances to the goal in the counterexample problem. -/
def cexD (s : Fin 7) : Nat :=
  [4, 3, 4, 3, 2, 1, 0].getD s.val 0

/-- The counterexample problem for A* optimality under a merely admissible
heuristic. -/
def cexProblem : SProblem (Fin 7) Nat :=
  { start := 0
    is_goal_state := fun s => s.val = 6
    actions := cexActions
    result := cexResult
    h := cexH }

/-- Invariant of the min-conflicts solver state: the assignment keys are
exactly `0 .. N-1` in order, every assigned value lies in `[0, N)`, and every
per-variable cache list is duplicate-free with entries in `[0, N)`. -/
def NQueens.MCInv (N : Nat) (assignment : List (Int × Int))
    (cache : Int → List Int) : Prop :=
  assignment.map Prod.fst = NQueens.domain N ∧
  (∀ kv ∈ assignment, 0 ≤ kv.2 ∧ kv.2 < N) ∧
  (∀ v : Int, (cache v).Nodup ∧ ∀ x ∈ cache v, 0 ≤ x ∧ x < N)

/-! ## Lemmas about `solution` and parent chains -/

theorem solutionAcc_eq {σ α : Type} :
    ∀ (n : Node σ α) (res : List (Node σ α)),
      solutionAcc n res = rootToList n ++ res.reverse
  | Node.mk s none a c d f, res => by
    simp [solutionAcc, rootToList]
  | Node.mk s (some p) a c d f, res => by
    rw [solutionAcc, rootToList,
      solutionAcc_eq p (res ++ [Node.mk s (some p) a c d f])]
    simp

theorem solution_eq_rootToList {σ α : Type} (n : Node σ α) :
    solution n = rootToList n := by
  rw [solution, solutionAcc_eq n []]
  simp

theorem rootToList_child {σ α : Type} (problem : SProblem σ α) (n : Node σ α)
    (a : α) :
    rootToList (n.child_node problem a) = rootToList n ++ [n.child_node problem a] := by
  cases n
  rfl

theorem child_node_action {σ α : Type} (problem : SProblem σ α) (n : Node σ α)
    (a : α) : (n.child_node problem a).action = some a := by
  cases n
  rfl

theorem child_node_state {σ α : Type} (problem : SProblem σ α) (n : Node σ α)
    (a : α) : (n.child_node problem a).state = problem.result n.state a := by
  cases n
  rfl

theorem rootToList_head {σ α : Type} (problem : SProblem σ α) (n : Node σ α)
    (hn : ReachN problem n) :
    ∃ t, rootToList n = Node.init problem.start none none 0 :: t := by
  induction hn with
  | root => exact ⟨[], rfl⟩
  | child m a hm ih =>
    obtain ⟨t, ht⟩ := ih
    refine ⟨t ++ [m.child_node problem a], ?_⟩
    rw [rootToList_child, ht]
    simp

theorem rootToList_getLast {σ α : Type} :
    ∀ (n : Node σ α), (rootToList n).getLast? = some n
  | Node.mk s none a c d f => rfl
  | Node.mk s (some p) a c d f => by
    rw [rootToList]
    exact List.getLast?_concat _

theorem reachN_runPath {σ α : Type} (problem : SProblem σ α) (n : Node σ α)
    (hn : ReachN problem n) :
    runPath problem problem.start (pathActions (rootToList n)) = n.state := by
  induction hn with
  | root => rfl
  | child m a hm ih =>
    rw [rootToList_child, pathActions, List.filterMap_append]
    simp only [pathActions, runPath] at ih ⊢
    rw [List.foldl_append, ih]
    simp [child_node_action, child_node_state]

/-! ## Claim C8: `solution` round-trip -/

/-- C8: for every node reachable from the root `Node(start)` by repeated
`child_node` applications, `solution(node)` is the root-to-node sequence of
the parent chain (first element the root, whose action is none, last element
the node itself), and folding `problem.result` over the recorded actions of
the non-root nodes starting from the start state reproduces the node's state. -/
theorem C8_solution_roundtrip {σ α : Type} (problem : SProblem σ α)
    (n : Node σ α) (hn : ReachN problem n) :
    solution n = rootToList n ∧
    (solution n).head? = some (Node.init problem.start none none 0) ∧
    (Node.init problem.start none none 0 : Node σ α).action = none ∧
    (solution n).getLast? = some n ∧
    runPath problem problem.start (pathActions (solution n)) = n.state := by
  refine ⟨solution_eq_rootToList n, ?_, rfl, ?_, ?_⟩
  · obtain ⟨t, ht⟩ := rootToList_head problem n hn
    rw [solution_eq_rootToList n, ht]
    rfl
  · rw [solution_eq_rootToList n]
    exact rootToList_getLast n
  · rw [solution_eq_rootToList n]
    exact reachN_runPath problem n hn

/-- Witness for C8 at a concrete reachable node of the notebook problem. -/
theorem C8_solution_roundtrip_witness :
    solution c8Node = rootToList c8Node ∧
    (solution c8Node).head? = some (Node.init puzzle8.start none none 0) ∧
    (Node.init puzzle8.start none none 0 : Node (List Nat) Puzzle.Act).action = none ∧
    (solution c8Node).getLast? = some c8Node ∧
    runPath puzzle8 puzzle8.start (pathActions (solution c8Node)) = c8Node.state :=
  C8_solution_roundtrip puzzle8 c8Node
    (ReachN.child (Node.init puzzle8.start none none 0) Puzzle.Act.left ReachN.root)

/-! ## Claim C3: the A* root node's `path_cost` -/

/-- C3 (failing-input evaluation): on the notebook's own test instance the
root node built by `astar_search` has `path_cost` equal to `h(start) = 3`,
not `0`: the source assigns `node.path_cost = 0 + problem.h(node.state,
heuristic)` where the intended accumulated-cost invariant requires `0`. -/
theorem C3_astar_root_path_cost :
    (astarRoot puzzle8).path_cost = Puzzle.h puzzleGoal puzzleStart ∧
    (astarRoot puzzle8).path_cost = 3 ∧
    ¬ (astarRoot puzzle8).path_cost = 0 := by
  refine ⟨rfl, rfl, ?_⟩
  decide

/-! ## Claim C4: iterative deepening on an all-cutoff problem -/

/-- C4 (failing-input evaluation): on the one-state self-loop problem every
depth-limited search up to the cap is a cutoff, and
`iterative_deepening_search` then returns `none` (Python's implicit `None`),
not a `failure` value. -/
theorem C4_ids_all_cutoff_returns_none :
    (∀ l, l < 10 → (depth_limited_search loopProblem l).isCutoff = true) ∧
    iterative_deepening_search loopProblem = none := by
  constructor
  · decide
  · rfl

/-! ## Claim C9: safety of `Problem.result` on legal actions -/

theorem set_swap_perm (l : List Nat) (i j : Nat) (hi : i < l.length)
    (hj : j < l.length) :
    ((l.set i (l.getD j 0)).set j (l.getD i 0)).Perm l := by
  rw [List.getD_eq_getElem l 0 hi, List.getD_eq_getElem l 0 hj]
  by_cases hij : i = j
  · subst hij
    rw [List.set_set]
    apply List.Perm.of_eq
    apply List.ext_getElem
    · simp
    · intro n h1 h2
      rw [List.getElem_set]
      split
      · next hh => subst hh; rfl
      · rfl
  · rw [List.perm_iff_count]
    intro a
    have hj' : j < (l.set i l[j]).length := by simpa using hj
    rw [List.count_set _ _ _ _ hj', List.count_set _ _ _ _ hi]
    have hgj : (l.set i l[j])[j] = l[j] := by
      rw [List.getElem_set]
      simp [hij]
    rw [hgj]
    by_cases ha : l[i] = a <;> by_cases hb : l[j] = a
    · have hci : List.count a l ≥ 1 := by
        rw [← ha]
        exact List.count_pos_iff.mpr (l.getElem_mem hi)
      simp only [beq_iff_eq, ha, hb, if_pos rfl, if_true, if_false]
      omega
    · have hci : List.count a l ≥ 1 := by
        rw [← ha]
        exact List.count_pos_iff.mpr (l.getElem_mem hi)
      simp only [beq_iff_eq, ha, hb, if_pos rfl, if_neg hb, if_true, if_false]
      omega
    · have hcj : List.count a l ≥ 1 := by
        rw [← hb]
        exact List.count_pos_iff.mpr (l.getElem_mem hj)
      simp only [beq_iff_eq, ha, hb, if_pos rfl, if_neg ha, if_true, if_false]
      omega
    · simp only [beq_iff_eq, ha, hb, if_neg ha, if_neg hb, if_true, if_false]
      omega

theorem puzzle_actsFor_bounds :
    ∀ ix, ix < 9 → ∀ a ∈ Puzzle.actsFor ix,
      0 ≤ (ix : Int) + Puzzle.change a ∧ (ix : Int) + Puzzle.change a < 9 := by
  decide

/-- C9: on every valid 8-puzzle state (a permutation of `0 .. 8`) and every
action offered by `Problem.actions`, the index `blank_ix + change[action]`
computed by `Problem.result` lies in `[0, 9)`, and the produced state is
again a permutation of `0 .. 8`. -/
theorem C9_result_safe (s : List Nat) (hs : s.Perm (List.range 9))
    (a : Puzzle.Act) (ha : a ∈ Puzzle.actions s) :
    (0 ≤ (s.indexOf 0 : Int) + Puzzle.change a ∧
      (s.indexOf 0 : Int) + Puzzle.change a < 9) ∧
    (Puzzle.result s a).Perm (List.range 9) := by
  have hlen : s.length = 9 := by
    have := hs.length_eq
    simpa using this
  have h0 : (0 : Nat) ∈ s := hs.mem_iff.mpr (by decide)
  have hix : s.indexOf 0 < 9 := by
    rw [← hlen]
    exact List.indexOf_lt_length.mpr h0
  have ha' : a ∈ Puzzle.actsFor (s.indexOf 0) := ha
  have hbound := puzzle_actsFor_bounds (s.indexOf 0) hix a ha'
  refine ⟨hbound, ?_⟩
  have hnn : ¬ ((s.indexOf 0 : Int) + Puzzle.change a < 0) := by omega
  have hadj : Puzzle.pyIx s.length ((s.indexOf 0 : Int) + Puzzle.change a)
      = ((s.indexOf 0 : Int) + Puzzle.change a).toNat := by
    rw [Puzzle.pyIx, if_neg hnn]
  have hadjlt : ((s.indexOf 0 : Int) + Puzzle.change a).toNat < s.length := by
    rw [hlen]
    omega
  have hixlt : s.indexOf 0 < s.length := by rw [hlen]; exact hix
  have : Puzzle.result s a =
      (s.set (s.indexOf 0)
        (s.getD (((s.indexOf 0 : Int) + Puzzle.change a).toNat) 0)).set
        (((s.indexOf 0 : Int) + Puzzle.change a).toNat)
        (s.getD (s.indexOf 0) 0) := by
    rw [Puzzle.result, hadj]
  rw [this]
  exact (set_swap_perm s (s.indexOf 0)
    (((s.indexOf 0 : Int) + Puzzle.change a).toNat) hixlt hadjlt).trans hs

/-- Witness for C9 at the notebook's goal state and the action 'left'. -/
theorem C9_result_safe_witness :
    puzzleGoal.Perm (List.range 9) ∧ Puzzle.Act.left ∈ Puzzle.actions puzzleGoal ∧
    ((0 ≤ (puzzleGoal.indexOf 0 : Int) + Puzzle.change Puzzle.Act.left ∧
      (puzzleGoal.indexOf 0 : Int) + Puzzle.change Puzzle.Act.left < 9) ∧
    (Puzzle.result puzzleGoal Puzzle.Act.left).Perm (List.range 9)) :=
  ⟨by decide, by decide,
    C9_result_safe puzzleGoal (by decide) Puzzle.Act.left (by decide)⟩

/-! ## Claim C5: the MRV variable selection -/

/-- C5 (counterexample): with `N = 4` and the empty assignment all four
variables are unassigned and tie with four remaining legal values each, yet
`select_unassigned_variable` returns variable `3`, not the lowest id `0`:
the `<=` comparison in its scan keeps the later variable on ties. -/
theorem C5_counterexample :
    (NQueens.select_unassigned_variable 4 []).1 = 3 ∧
    (∀ v ∈ NQueens.domain 4, NQueens.hasKey [] v = false) ∧
    (∀ v ∈ NQueens.domain 4, (NQueens.remaining_legal_values 4 v []).length = 4) ∧
    ¬ ((NQueens.select_unassigned_variable 4 []).1 = 0) := by
  refine ⟨rfl, by decide, by decide, by decide⟩

theorem suvLoop_spec (cur : Int × List Int) (rest : List (Int × List Int))
    (hp : List.Pairwise (fun p q => p.1 < q.1) (cur :: rest)) :
    (NQueens.suvLoop cur rest = cur ∨ NQueens.suvLoop cur rest ∈ rest) ∧
    (∀ p ∈ cur :: rest, (NQueens.suvLoop cur rest).2.length ≤ p.2.length) ∧
    (∀ p ∈ cur :: rest, p.2.length = (NQueens.suvLoop cur rest).2.length →
      p.1 ≤ (NQueens.suvLoop cur rest).1) := by
  induction rest generalizing cur with
  | nil =>
    refine ⟨Or.inl rfl, ?_, ?_⟩ <;> intro p hp3 <;> simp_all [NQueens.suvLoop]
  | cons kv rest ih =>
    obtain ⟨k, v⟩ := kv
    rw [List.pairwise_cons] at hp
    have hcur_lt := hp.1
    have hp' := hp.2
    have hp'' : List.Pairwise (fun p q => p.1 < q.1) (cur :: rest) := by
      rw [List.pairwise_cons]
      exact ⟨fun q hq => hcur_lt q (List.mem_cons_of_mem _ hq),
        (List.pairwise_cons.mp hp').2⟩
    rw [NQueens.suvLoop]
    by_cases hlen : v.length ≤ cur.2.length
    · rw [if_pos hlen]
      obtain ⟨hmem, hmin, htie⟩ := ih (k, v) hp'
      have hmem' : NQueens.suvLoop (k, v) rest ∈ (k, v) :: rest := by
        rcases hmem with h | h
        · rw [h]; exact List.mem_cons_self _ _
        · exact List.mem_cons_of_mem _ h
      refine ⟨Or.inr hmem', ?_, ?_⟩
      · intro p hp3
        rcases List.mem_cons.mp hp3 with heq | h
        · rw [heq]
          exact le_trans (hmin (k, v) (List.mem_cons_self _ _)) hlen
        · exact hmin p h
      · intro p hp3 heq
        rcases List.mem_cons.mp hp3 with hpc | h
        · rw [hpc]
          exact le_of_lt (hcur_lt _ hmem')
        · exact htie p h heq
    · rw [if_neg hlen]
      push_neg at hlen
      obtain ⟨hmem, hmin, htie⟩ := ih cur hp''
      refine ⟨?_, ?_, ?_⟩
      · rcases hmem with h | h
        · exact Or.inl h
        · exact Or.inr (List.mem_cons_of_mem _ h)
      · intro p hp3
        rcases List.mem_cons.mp hp3 with hpc | h
        · rw [hpc]
          exact hmin cur (List.mem_cons_self _ _)
        · rcases List.mem_cons.mp h with hpc | h2
          · rw [hpc]
            exact le_of_lt (lt_of_le_of_lt (hmin cur (List.mem_cons_self _ _)) hlen)
          · exact hmin p (List.mem_cons_of_mem _ h2)
      · intro p hp3 heq
        rcases List.mem_cons.mp hp3 with hpc | h
        · rw [hpc]
          rw [hpc] at heq
          exact htie cur (List.mem_cons_self _ _) heq
        · rcases List.mem_cons.mp h with hpc | h2
          · exfalso
            have h1 := hmin cur (List.mem_cons_self _ _)
            rw [hpc] at heq
            have h2 : ((k, v) : Int × List Int).2.length = v.length := rfl
            omega
          · exact htie p (List.mem_cons_of_mem _ h2) heq

theorem domain_pairwise (N : Nat) :
    List.Pairwise (fun a b => a < b) (NQueens.domain N) := by
  rw [NQueens.domain]
  refine List.Pairwise.map _ ?_ (List.pairwise_lt_range N)
  intro a b hab
  exact Int.ofNat_lt.mpr hab

/-- C5 (amended): `select_unassigned_variable` returns an unassigned
variable whose remaining-legal-values list is shortest (together with that
list), but ties among the fewest remaining values are broken by the HIGHEST
variable id, not the lowest. -/
theorem C5_amended (N : Nat) (assignment : List (Int × Int))
    (hne : (NQueens.domain N).filter (fun v => ! NQueens.hasKey assignment v) ≠ []) :
    (NQueens.select_unassigned_variable N assignment).1 ∈
        (NQueens.domain N).filter (fun v => ! NQueens.hasKey assignment v) ∧
    (NQueens.select_unassigned_variable N assignment).2 =
      NQueens.remaining_legal_values N
        (NQueens.select_unassigned_variable N assignment).1 assignment ∧
    (∀ v ∈ (NQueens.domain N).filter (fun v => ! NQueens.hasKey assignment v),
      (NQueens.select_unassigned_variable N assignment).2.length ≤
        (NQueens.remaining_legal_values N v assignment).length) ∧
    (∀ v ∈ (NQueens.domain N).filter (fun v => ! NQueens.hasKey assignment v),
      (NQueens.remaining_legal_values N v assignment).length =
        (NQueens.select_unassigned_variable N assignment).2.length →
      v ≤ (NQueens.select_unassigned_variable N assignment).1) := by
  rcases hu : (NQueens.domain N).filter (fun v => ! NQueens.hasKey assignment v)
    with _ | ⟨v0, vr⟩
  · exact absurd hu hne
  · have hpflt : List.Pairwise (fun a b => a < b)
        ((NQueens.domain N).filter (fun v => ! NQueens.hasKey assignment v)) :=
      (domain_pairwise N).filter _
    rw [hu] at hpflt
    have hpl : List.Pairwise (fun p q => p.1 < q.1)
        ((v0 :: vr).map (fun var =>
          (var, NQueens.remaining_legal_values N var assignment))) := by
      rw [List.pairwise_map]
      exact hpflt
    have hsel : NQueens.select_unassigned_variable N assignment =
        NQueens.suvLoop (v0, NQueens.remaining_legal_values N v0 assignment)
          (vr.map (fun var => (var, NQueens.remaining_legal_values N var assignment))) := by
      rw [NQueens.select_unassigned_variable, hu]
      rfl
    rw [List.map_cons] at hpl
    obtain ⟨hmem, hmin, htie⟩ := suvLoop_spec _ _ hpl
    have hmem2 : NQueens.suvLoop (v0, NQueens.remaining_legal_values N v0 assignment)
        (vr.map (fun var => (var, NQueens.remaining_legal_values N var assignment))) ∈
        (v0 :: vr).map (fun var => (var, NQueens.remaining_legal_values N var assignment)) := by
      rw [List.map_cons]
      rcases hmem with h | h
      · rw [h]; exact List.mem_cons_self _ _
      · exact List.mem_cons_of_mem _ h
    obtain ⟨w, hw, hweq⟩ := List.mem_map.mp hmem2
    refine ⟨?_, ?_, ?_, ?_⟩
    · rw [hsel, ← hweq]
      exact hw
    · rw [hsel, ← hweq]
    · intro v hv
      have hvm : (v, NQueens.remaining_legal_values N v assignment) ∈
          (v0 :: vr).map (fun var => (var, NQueens.remaining_legal_values N var assignment)) :=
        List.mem_map.mpr ⟨v, hv, rfl⟩
      rw [List.map_cons] at hvm
      rw [hsel]
      exact hmin _ hvm
    · intro v hv heq
      have hvm : (v, NQueens.remaining_legal_values N v assignment) ∈
          (v0 :: vr).map (fun var => (var, NQueens.remaining_legal_values N var assignment)) :=
        List.mem_map.mpr ⟨v, hv, rfl⟩
      rw [List.map_cons] at hvm
      rw [hsel] at heq ⊢
      exact htie _ hvm heq

/-- Witness for the amended C5 on a concrete partial assignment. -/
theorem C5_amended_witness :
    (NQueens.select_unassigned_variable 4 [(0, 0)]).1 ∈
        (NQueens.domain 4).filter (fun v => ! NQueens.hasKey [(0, 0)] v) ∧
    (NQueens.select_unassigned_variable 4 [(0, 0)]).2 =
      NQueens.remaining_legal_values 4
        (NQueens.select_unassigned_variable 4 [(0, 0)]).1 [(0, 0)] ∧
    (∀ v ∈ (NQueens.domain 4).filter (fun v => ! NQueens.hasKey [(0, 0)] v),
      (NQueens.select_unassigned_variable 4 [(0, 0)]).2.length ≤
        (NQueens.remaining_legal_values 4 v [(0, 0)]).length) ∧
    (∀ v ∈ (NQueens.domain 4).filter (fun v => ! NQueens.hasKey [(0, 0)] v),
      (NQueens.remaining_legal_values 4 v [(0, 0)]).length =
        (NQueens.select_unassigned_variable 4 [(0, 0)]).2.length →
      v ≤ (NQueens.select_unassigned_variable 4 [(0, 0)]).1) :=
  C5_amended 4 [(0, 0)] (by decide)

/-! ## Claim C6: the LCV value ordering -/

/-- C6 (counterexample): with `var = 1` and both neighbors `0` and `2`
assigned, the code's `elif` removes only `var - 1` and still counts the
assigned neighbor `var + 1`, ordering `[2, 0]` as `[0, 2]`; the claim's rule
(exclude every assigned neighbor) would leave all counts `0` and return the
stable order `[2, 0]`. -/
theorem C6_counterexample :
    NQueens.hasKey [((0 : Int), (0 : Int)), (2, 2)] (1 - 1) = true ∧
    NQueens.hasKey [((0 : Int), (0 : Int)), (2, 2)] (1 + 1) = true ∧
    NQueens.order_domain_values 4 1 [2, 0] [(0, 0), (2, 2)] = [0, 2] ∧
    NQueens.order_domain_values_claim 4 1 [2, 0] [(0, 0), (2, 2)] = [2, 0] ∧
    ¬ (NQueens.order_domain_values 4 1 [2, 0] [(0, 0), (2, 2)] =
        NQueens.order_domain_values_claim 4 1 [2, 0] [(0, 0), (2, 2)]) := by
  refine ⟨rfl, rfl, rfl, rfl, by decide⟩

/-- C6 (amended): `order_domain_values` returns a permutation of the given
values in ascending order of the ruled-out count summed over the kept
neighbors, where the kept neighbors follow the source's `if`/`elif` rule: an
assigned `var - 1` is excluded, otherwise an assigned `var + 1` is excluded,
so with both neighbors assigned the assigned `var + 1` is still counted. -/
theorem C6_amended (N : Nat) (var : Int) (values : List Int)
    (assignment : List (Int × Int)) :
    (NQueens.order_domain_values N var values assignment).Perm values ∧
    List.Pairwise (fun a b =>
      ((NQueens.odvNeighbors var assignment).map
        (fun nb => NQueens.n_choices_ruled_out N var a nb assignment)).sum ≤
      ((NQueens.odvNeighbors var assignment).map
        (fun nb => NQueens.n_choices_ruled_out N var b nb assignment)).sum)
      (NQueens.order_domain_values N var values assignment) ∧
    (NQueens.hasKey assignment (var - 1) = true →
      NQueens.hasKey assignment (var + 1) = true →
      NQueens.odvNeighbors var assignment = [var + 1]) := by
  have hperm0 : (NQueens.stableSortBy (values.map (fun val =>
      (val, ((NQueens.odvNeighbors var assignment).map
        (fun nb => NQueens.n_choices_ruled_out N var val nb assignment)).sum)))).Perm
      (values.map (fun val =>
      (val, ((NQueens.odvNeighbors var assignment).map
        (fun nb => NQueens.n_choices_ruled_out N var val nb assignment)).sum))) :=
    List.perm_insertionSort _ _
  refine ⟨?_, ?_, ?_⟩
  · rw [NQueens.order_domain_values]
    have := hperm0.map Prod.fst
    rw [List.map_map] at this
    have hcomp : (Prod.fst ∘ fun val : Int =>
        (val, ((NQueens.odvNeighbors var assignment).map
          (fun nb => NQueens.n_choices_ruled_out N var val nb assignment)).sum)) = id :=
      funext fun v => rfl
    rw [hcomp, List.map_id] at this
    exact this
  · rw [NQueens.order_domain_values]
    have hsorted : List.Pairwise (fun a b : Int × Nat => a.2 ≤ b.2)
        (NQueens.stableSortBy (values.map (fun val =>
          (val, ((NQueens.odvNeighbors var assignment).map
            (fun nb => NQueens.n_choices_ruled_out N var val nb assignment)).sum)))) := by
      have := @List.sorted_insertionSort (Int × Nat) (fun a b => a.2 ≤ b.2) _
        ⟨fun a b => Nat.le_total a.2 b.2⟩ ⟨fun a b c => Nat.le_trans⟩
        (values.map (fun val =>
          (val, ((NQueens.odvNeighbors var assignment).map
            (fun nb => NQueens.n_choices_ruled_out N var val nb assignment)).sum)))
      exact this
    rw [List.pairwise_map]
    refine List.Pairwise.imp_of_mem ?_ hsorted
    intro a b ha hb hab
    have hmema := hperm0.subset ha
    have hmemb := hperm0.subset hb
    obtain ⟨va, _, hva⟩ := List.mem_map.mp hmema
    obtain ⟨vb, _, hvb⟩ := List.mem_map.mp hmemb
    rw [← hva, ← hvb] at hab ⊢
    exact hab
  · intro h1 h2
    rw [NQueens.odvNeighbors, if_pos h1]
    simp

/-- Witness for the amended C6 at the counterexample's input. -/
theorem C6_amended_witness :
    (NQueens.order_domain_values 4 1 [2, 0] [(0, 0), (2, 2)]).Perm [2, 0] ∧
    List.Pairwise (fun a b =>
      ((NQueens.odvNeighbors 1 [(0, 0), (2, 2)]).map
        (fun nb => NQueens.n_choices_ruled_out 4 1 a nb [(0, 0), (2, 2)])).sum ≤
      ((NQueens.odvNeighbors 1 [(0, 0), (2, 2)]).map
        (fun nb => NQueens.n_choices_ruled_out 4 1 b nb [(0, 0), (2, 2)])).sum)
      (NQueens.order_domain_values 4 1 [2, 0] [(0, 0), (2, 2)]) ∧
    (NQueens.hasKey [(0, 0), (2, 2)] (1 - 1) = true →
      NQueens.hasKey [(0, 0), (2, 2)] (1 + 1) = true →
      NQueens.odvNeighbors 1 [(0, 0), (2, 2)] = [1 + 1]) :=
  C6_amended 4 1 [2, 0] [(0, 0), (2, 2)]

/-! ## Claim C7: the min-conflicts value choice -/

/-- C7 (counterexample): with `N = 2`, variable `0`, the complete assignment
`{0: 0, 1: 1}` and an empty cache, the two candidate values `0` and `1` tie
at one conflict each, and `min_conflicts_val` returns `1` (the last tying
value), not the first-encountered smallest value `0`: its `<=` comparison
keeps later ties. -/
theorem C7_counterexample :
    NQueens.n_conflicts 0 0 [(0, 0), (1, 1)] = 1 ∧
    NQueens.n_conflicts 0 1 [(0, 0), (1, 1)] = 1 ∧
    (NQueens.min_conflicts_val 2 0 [(0, 0), (1, 1)] []).1 = 1 ∧
    ¬ ((NQueens.min_conflicts_val 2 0 [(0, 0), (1, 1)] []).1 = 0) := by
  refine ⟨rfl, rfl, rfl, by decide⟩

theorem mcvLoop_range (var : Int) (asg : List (Int × Int)) (tried : List Int) :
    ∀ (vals : List Int) (metric : Nat) (value : Int),
      NQueens.mcvLoop var asg tried vals metric value = value ∨
      (NQueens.mcvLoop var asg tried vals metric value ∈ vals ∧
       NQueens.mcvLoop var asg tried vals metric value ∉ tried ∧
       NQueens.n_conflicts var (NQueens.mcvLoop var asg tried vals metric value) asg
         ≤ metric) := by
  intro vals
  induction vals with
  | nil => intro metric value; exact Or.inl rfl
  | cons w rest ih =>
    intro metric value
    rw [NQueens.mcvLoop]
    by_cases hw : w ∉ tried
    · rw [if_pos hw]
      by_cases hnum : NQueens.n_conflicts var w asg ≤ metric
      · rw [if_pos hnum]
        rcases ih (NQueens.n_conflicts var w asg) w with h | ⟨h1, h2, h3⟩
        · right
          rw [h]
          exact ⟨List.mem_cons_self _ _, hw, hnum⟩
        · exact Or.inr ⟨List.mem_cons_of_mem _ h1, h2, le_trans h3 hnum⟩
      · rw [if_neg hnum]
        rcases ih metric value with h | ⟨h1, h2, h3⟩
        · exact Or.inl h
        · exact Or.inr ⟨List.mem_cons_of_mem _ h1, h2, h3⟩
    · rw [if_neg hw]
      rcases ih metric value with h | ⟨h1, h2, h3⟩
      · exact Or.inl h
      · exact Or.inr ⟨List.mem_cons_of_mem _ h1, h2, h3⟩

theorem mcvLoop_min (var : Int) (asg : List (Int × Int)) (tried : List Int) :
    ∀ (vals : List Int) (metric : Nat) (value : Int),
      List.Pairwise (fun a b => a < b) vals →
      ∀ v ∈ vals, v ∉ tried → NQueens.n_conflicts var v asg ≤ metric →
        (NQueens.mcvLoop var asg tried vals metric value ∈ vals ∧
         NQueens.mcvLoop var asg tried vals metric value ∉ tried ∧
         NQueens.n_conflicts var (NQueens.mcvLoop var asg tried vals metric value) asg
           ≤ NQueens.n_conflicts var v asg ∧
         (NQueens.n_conflicts var v asg =
            NQueens.n_conflicts var (NQueens.mcvLoop var asg tried vals metric value) asg →
          v ≤ NQueens.mcvLoop var asg tried vals metric value)) := by
  intro vals
  induction vals with
  | nil => intro metric value _ v hv; exact absurd hv (List.not_mem_nil v)
  | cons w rest ih =>
    intro metric value hp v hv hvt hvm
    rw [List.pairwise_cons] at hp
    rw [NQueens.mcvLoop]
    by_cases hw : w ∉ tried
    · rw [if_pos hw]
      by_cases hnum : NQueens.n_conflicts var w asg ≤ metric
      · rw [if_pos hnum]
        have hr3 := mcvLoop_range var asg tried rest (NQueens.n_conflicts var w asg) w
        have hrmem : NQueens.mcvLoop var asg tried rest (NQueens.n_conflicts var w asg) w
            ∈ w :: rest := by
          rcases hr3 with h | ⟨h1, _, _⟩
          · rw [h]; exact List.mem_cons_self _ _
          · exact List.mem_cons_of_mem _ h1
        have hrnt : NQueens.mcvLoop var asg tried rest (NQueens.n_conflicts var w asg) w
            ∉ tried := by
          rcases hr3 with h | ⟨_, h2, _⟩
          · rw [h]; exact hw
          · exact h2
        have hrle : NQueens.n_conflicts var
            (NQueens.mcvLoop var asg tried rest (NQueens.n_conflicts var w asg) w) asg ≤
            NQueens.n_conflicts var w asg := by
          rcases hr3 with h | ⟨_, _, h3⟩
          · rw [h]
          · exact h3
        rcases List.mem_cons.mp hv with hvw | hvr
        · refine ⟨hrmem, hrnt, ?_, ?_⟩
          · rw [hvw]; exact hrle
          · intro htie
            rw [hvw]
            rcases hr3 with h | ⟨h1, _, _⟩
            · rw [h]
            · exact le_of_lt (hp.1 _ h1)
        · by_cases hvle : NQueens.n_conflicts var v asg ≤ NQueens.n_conflicts var w asg
          · obtain ⟨m1, m2, m3, m4⟩ := ih (NQueens.n_conflicts var w asg) w hp.2 v hvr hvt hvle
            exact ⟨List.mem_cons_of_mem _ m1, m2, m3, fun htie => m4 htie⟩
          · push_neg at hvle
            refine ⟨hrmem, hrnt, le_of_lt (lt_of_le_of_lt hrle hvle), ?_⟩
            intro htie
            exfalso
            omega
      · rw [if_neg hnum]
        rcases List.mem_cons.mp hv with hvw | hvr
        · exfalso; rw [hvw] at hvm; exact hnum hvm
        · obtain ⟨m1, m2, m3, m4⟩ := ih metric value hp.2 v hvr hvt hvm
          exact ⟨List.mem_cons_of_mem _ m1, m2, m3, m4⟩
    · rw [if_neg hw]
      rcases List.mem_cons.mp hv with hvw | hvr
      · exfalso; rw [hvw] at hvt; exact hvt (not_not.mp hw)
      · obtain ⟨m1, m2, m3, m4⟩ := ih metric value hp.2 v hvr hvt hvm
        exact ⟨List.mem_cons_of_mem _ m1, m2, m3, m4⟩

theorem domain_nonneg (N : Nat) : ∀ v ∈ NQueens.domain N, 0 ≤ v := by
  intro v hv
  rw [NQueens.domain] at hv
  obtain ⟨k, _, hk⟩ := List.mem_map.mp hv
  rw [← hk]
  exact Int.ofNat_nonneg k

/-- C7 (amended): `min_conflicts_val` returns, among the values in `[0, N)`
not in the post-reset tried-values cache, a value minimizing `n_conflicts`
against the rest of the assignment, but ties are broken in favor of the LAST
value achieving the minimum in ascending order (the largest tying value),
not the first. -/
theorem C7_amended (N : Nat) (var : Int) (assignment : List (Int × Int))
    (cacheVar : List Int)
    (hex : ∃ v ∈ NQueens.domain N,
      v ∉ (if cacheVar.length = N then ([] : List Int) else cacheVar))
    (hcnt : ∀ v ∈ NQueens.domain N, NQueens.n_conflicts var v assignment ≤ N) :
    (NQueens.min_conflicts_val N var assignment cacheVar).2 =
      (if cacheVar.length = N then ([] : List Int) else cacheVar) ∧
    (NQueens.min_conflicts_val N var assignment cacheVar).1 ∈ NQueens.domain N ∧
    (NQueens.min_conflicts_val N var assignment cacheVar).1 ∉
      (if cacheVar.length = N then ([] : List Int) else cacheVar) ∧
    ¬ ((NQueens.min_conflicts_val N var assignment cacheVar).1 = -1) ∧
    (∀ v ∈ NQueens.domain N,
      v ∉ (if cacheVar.length = N then ([] : List Int) else cacheVar) →
      NQueens.n_conflicts var
          (NQueens.min_conflicts_val N var assignment cacheVar).1 assignment ≤
        NQueens.n_conflicts var v assignment) ∧
    (∀ v ∈ NQueens.domain N,
      v ∉ (if cacheVar.length = N then ([] : List Int) else cacheVar) →
      NQueens.n_conflicts var v assignment =
        NQueens.n_conflicts var
          (NQueens.min_conflicts_val N var assignment cacheVar).1 assignment →
      v ≤ (NQueens.min_conflicts_val N var assignment cacheVar).1) := by
  obtain ⟨v0, hv0d, hv0t⟩ := hex
  have hval : (NQueens.min_conflicts_val N var assignment cacheVar).1 =
      NQueens.mcvLoop var assignment
        (if cacheVar.length = N then ([] : List Int) else cacheVar)
        (NQueens.domain N) N (-1) := rfl
  have h0 := mcvLoop_min var assignment
    (if cacheVar.length = N then ([] : List Int) else cacheVar)
    (NQueens.domain N) N (-1) (domain_pairwise N) v0 hv0d hv0t (hcnt v0 hv0d)
  refine ⟨rfl, ?_, ?_, ?_, ?_, ?_⟩
  · rw [hval]; exact h0.1
  · rw [hval]; exact h0.2.1
  · intro hcon
    have := domain_nonneg N _ (hval ▸ h0.1)
    rw [hcon] at this
    omega
  · intro v hv hvt
    have hh := mcvLoop_min var assignment
      (if cacheVar.length = N then ([] : List Int) else cacheVar)
      (NQueens.domain N) N (-1) (domain_pairwise N) v hv hvt (hcnt v hv)
    rw [hval]
    exact hh.2.2.1
  · intro v hv hvt htie
    have hh := mcvLoop_min var assignment
      (if cacheVar.length = N then ([] : List Int) else cacheVar)
      (NQueens.domain N) N (-1) (domain_pairwise N) v hv hvt (hcnt v hv)
    rw [hval]
    refine hh.2.2.2 ?_
    rw [← hval]
    exact htie

/-- Witness for the amended C7 at the counterexample's input. -/
theorem C7_amended_witness :
    (NQueens.min_conflicts_val 2 0 [(0, 0), (1, 1)] []).2 =
      (if ([] : List Int).length = 2 then ([] : List Int) else []) ∧
    (NQueens.min_conflicts_val 2 0 [(0, 0), (1, 1)] []).1 ∈ NQueens.domain 2 ∧
    (NQueens.min_conflicts_val 2 0 [(0, 0), (1, 1)] []).1 ∉
      (if ([] : List Int).length = 2 then ([] : List Int) else []) ∧
    ¬ ((NQueens.min_conflicts_val 2 0 [(0, 0), (1, 1)] []).1 = -1) ∧
    (∀ v ∈ NQueens.domain 2,
      v ∉ (if ([] : List Int).length = 2 then ([] : List Int) else []) →
      NQueens.n_conflicts 0
          (NQueens.min_conflicts_val 2 0 [(0, 0), (1, 1)] []).1 [(0, 0), (1, 1)] ≤
        NQueens.n_conflicts 0 v [(0, 0), (1, 1)]) ∧
    (∀ v ∈ NQueens.domain 2,
      v ∉ (if ([] : List Int).length = 2 then ([] : List Int) else []) →
      NQueens.n_conflicts 0 v [(0, 0), (1, 1)] =
        NQueens.n_conflicts 0
          (NQueens.min_conflicts_val 2 0 [(0, 0), (1, 1)] []).1 [(0, 0), (1, 1)] →
      v ≤ (NQueens.min_conflicts_val 2 0 [(0, 0), (1, 1)] []).1) :=
  C7_amended 2 0 [(0, 0), (1, 1)] [] ⟨0, by decide, by decide⟩ (by decide)

/-! ## Claim C10: the min-conflicts solver invariant -/

theorem mem_domain_iff (N : Nat) (v : Int) :
    v ∈ NQueens.domain N ↔ 0 ≤ v ∧ v < N := by
  rw [NQueens.domain]
  constructor
  · intro hv
    obtain ⟨k, hk, hkv⟩ := List.mem_map.mp hv
    rw [← hkv]
    exact ⟨Int.ofNat_nonneg k, Int.ofNat_lt.mpr (List.mem_range.mp hk)⟩
  · intro ⟨h1, h2⟩
    refine List.mem_map.mpr ⟨v.toNat, List.mem_range.mpr ?_, Int.toNat_of_nonneg h1⟩
    omega

theorem domain_length (N : Nat) : (NQueens.domain N).length = N := by
  rw [NQueens.domain, List.length_map, List.length_range]

theorem domain_nodup (N : Nat) : (NQueens.domain N).Nodup :=
  (domain_pairwise N).imp ne_of_lt

theorem hasKey_iff_mem_keys (assignment : List (Int × Int)) (k : Int) :
    NQueens.hasKey assignment k = true ↔ k ∈ assignment.map Prod.fst := by
  rw [NQueens.hasKey, List.any_eq_true]
  constructor
  · intro ⟨kv, hkv, he⟩
    have he' : kv.1 = k := by simpa using he
    exact List.mem_map.mpr ⟨kv, hkv, he'⟩
  · intro hk
    obtain ⟨kv, hkv, he⟩ := List.mem_map.mp hk
    refine ⟨kv, hkv, ?_⟩
    simp [he]

theorem dictSet_keys (assignment : List (Int × Int)) (k v : Int)
    (hk : NQueens.hasKey assignment k = true) :
    (NQueens.dictSet assignment k v).map Prod.fst = assignment.map Prod.fst := by
  rw [NQueens.dictSet, if_pos hk, List.map_map]
  refine List.map_congr_left ?_
  intro kv _
  by_cases he : kv.1 = k
  · simp [he]
  · simp [he]

theorem dictSet_values (assignment : List (Int × Int)) (k v : Int)
    (kv' : Int × Int) (hm : kv' ∈ NQueens.dictSet assignment k v) :
    kv' ∈ assignment ∨ kv' = (k, v) := by
  rw [NQueens.dictSet] at hm
  split at hm
  · obtain ⟨kv, hkv, he⟩ := List.mem_map.mp hm
    by_cases hc : kv.1 = k
    · rw [if_pos hc] at he
      exact Or.inr he.symm
    · rw [if_neg hc] at he
      exact Or.inl (he ▸ hkv)
  · rcases List.mem_append.mp hm with h | h
    · exact Or.inl h
    · exact Or.inr (List.mem_singleton.mp h)

theorem nodup_append_singleton {l : List Int} {a : Int} (hl : l.Nodup)
    (ha : a ∉ l) : (l ++ [a]).Nodup := by
  have hperm : (l ++ [a]).Perm (a :: l) := List.perm_append_singleton a l
  exact hperm.nodup_iff.mpr (List.nodup_cons.mpr ⟨ha, hl⟩)

theorem exists_missing_value (N : Nat) (tried : List Int)
    (hnd : tried.Nodup) (hsub : ∀ x ∈ tried, 0 ≤ x ∧ x < N)
    (hlen : ¬ tried.length = N) :
    ∃ v ∈ NQueens.domain N, v ∉ tried := by
  by_contra hcon
  push_neg at hcon
  have hsub2 : NQueens.domain N ⊆ tried := fun v hv => hcon v hv
  have h1 : N ≤ tried.length := by
    have := (List.subperm_of_subset (domain_nodup N) hsub2).length_le
    rw [domain_length] at this
    exact this
  have h2 : tried.length ≤ N := by
    have hsub3 : tried ⊆ NQueens.domain N := by
      intro x hx
      exact (mem_domain_iff N x).mpr (hsub x hx)
    have := (List.subperm_of_subset hnd hsub3).length_le
    rw [domain_length] at this
    exact this
  omega

/-- C10: starting from the random complete initialisation, the min-conflicts
solver state satisfies the completeness invariant (keys exactly `0 .. N-1`,
values in `[0, N)`, duplicate-free in-range caches), and every iteration that
proceeds past the solution check finds a non-empty list of conflicted
variables and a `min_conflicts_val` different from the `-1` sentinel, while
re-establishing the invariant for the next iteration. -/
theorem C10_solver_invariant (N : Nat) (hN : 1 ≤ N) (a0 : Nat → Int)
    (h0 : ∀ i, 0 ≤ a0 i ∧ a0 i < N) (rand : Nat → Nat) :
    NQueens.MCInv N (NQueens.initAssignment N a0) (NQueens.initCache N a0) ∧
    (∀ assignment cache n_iter, NQueens.MCInv N assignment cache →
      NQueens.is_solution N assignment = false →
      NQueens.conflicted_vars assignment ≠ [] ∧
      (∀ (var : Int) (mc : Int × List Int),
        var = (NQueens.conflicted_vars assignment).getD
          (rand n_iter % (NQueens.conflicted_vars assignment).length) 0 →
        mc = NQueens.min_conflicts_val N var assignment (cache var) →
        ¬ (mc.1 = -1) ∧
        NQueens.MCInv N (NQueens.dictSet assignment var mc.1)
          (NQueens.cacheUpd (NQueens.cacheUpd cache var mc.2) var
            (mc.2 ++ [mc.1])))) := by
  constructor
  · refine ⟨?_, ?_, ?_⟩
    · rw [NQueens.initAssignment, List.map_map, NQueens.domain]
      exact List.map_congr_left (fun i _ => rfl)
    · intro kv hkv
      rw [NQueens.initAssignment] at hkv
      obtain ⟨i, _, hi⟩ := List.mem_map.mp hkv
      rw [← hi]
      exact h0 i
    · intro v
      rw [NQueens.initCache]
      split
      · refine ⟨List.nodup_singleton _, ?_⟩
        intro x hx
        rw [List.mem_singleton.mp hx]
        exact h0 _
      · exact ⟨List.nodup_nil, fun x hx => absurd hx (List.not_mem_nil x)⟩
  · intro assignment cache n_iter hinv hsol
    obtain ⟨hkeys, hvals, hcache⟩ := hinv
    have hlen : assignment.length = N := by
      have := congrArg List.length hkeys
      rw [List.length_map, domain_length] at this
      exact this
    have hcomplete : NQueens.is_complete N assignment = true := by
      rw [NQueens.is_complete]
      simp [hlen]
    have hcv : NQueens.conflicted_vars assignment ≠ [] := by
      intro hempty
      rw [NQueens.is_solution, hcomplete, hempty] at hsol
      simp at hsol
    refine ⟨hcv, ?_⟩
    intro var mc hvar hmc
    have hcvne : 0 < (NQueens.conflicted_vars assignment).length :=
      List.length_pos.mpr hcv
    have hvmem : var ∈ NQueens.conflicted_vars assignment := by
      rw [hvar]
      have hidx : rand n_iter % (NQueens.conflicted_vars assignment).length <
          (NQueens.conflicted_vars assignment).length := Nat.mod_lt _ hcvne
      rw [List.getD_eq_getElem _ _ hidx]
      exact List.getElem_mem _
    have hvkeys : var ∈ assignment.map Prod.fst := by
      rw [NQueens.conflicted_vars] at hvmem
      obtain ⟨kv, hkv, he⟩ := List.mem_map.mp hvmem
      exact List.mem_map.mpr ⟨kv, List.mem_of_mem_filter hkv, he⟩
    have hvdom : var ∈ NQueens.domain N := hkeys ▸ hvkeys
    obtain ⟨hnd, hbnd⟩ := hcache var
    have hndt : (if (cache var).length = N then ([] : List Int) else cache var).Nodup := by
      split
      · exact List.nodup_nil
      · exact hnd
    have hbndt : ∀ x ∈ (if (cache var).length = N then ([] : List Int) else cache var),
        0 ≤ x ∧ x < N := by
      split
      · intro x hx
        exact absurd hx (List.not_mem_nil x)
      · exact hbnd
    have hex : ∃ v ∈ NQueens.domain N,
        v ∉ (if (cache var).length = N then ([] : List Int) else cache var) := by
      by_cases hlc : (cache var).length = N
      · rw [if_pos hlc]
        refine ⟨0, ?_, List.not_mem_nil 0⟩
        rw [mem_domain_iff]
        refine ⟨le_refl 0, ?_⟩
        exact_mod_cast Nat.lt_of_lt_of_le Nat.zero_lt_one hN
      · rw [if_neg hlc]
        exact exists_missing_value N (cache var) hnd hbnd hlc
    have hcnt : ∀ v ∈ NQueens.domain N,
        NQueens.n_conflicts var v assignment ≤ N := by
      intro v _
      rw [NQueens.n_conflicts]
      refine le_trans (List.countP_le_length _) (le_trans (List.length_filter_le _ _) ?_)
      rw [hlen]
    obtain ⟨v0, hv0d, hv0t⟩ := hex
    have hmcv := mcvLoop_min var assignment
      (if (cache var).length = N then ([] : List Int) else cache var)
      (NQueens.domain N) N (-1) (domain_pairwise N) v0 hv0d hv0t (hcnt v0 hv0d)
    have hfst : mc.1 = NQueens.mcvLoop var assignment
        (if (cache var).length = N then ([] : List Int) else cache var)
        (NQueens.domain N) N (-1) := by
      rw [hmc]
      rfl
    have hsnd : mc.2 = (if (cache var).length = N then ([] : List Int) else cache var) := by
      rw [hmc]
      rfl
    have hr_mem : mc.1 ∈ NQueens.domain N := by
      rw [hfst]
      exact hmcv.1
    have hr_nt : mc.1 ∉ (if (cache var).length = N then ([] : List Int) else cache var) := by
      rw [hfst]
      exact hmcv.2.1
    refine ⟨?_, ?_, ?_, ?_⟩
    · intro hcon
      have := (mem_domain_iff N _).mp hr_mem
      rw [hcon] at this
      omega
    · rw [dictSet_keys _ _ _ ((hasKey_iff_mem_keys _ _).mpr hvkeys)]
      exact hkeys
    · intro kv hkv
      rcases dictSet_values _ _ _ _ hkv with h | h
      · exact hvals kv h
      · rw [h]
        exact (mem_domain_iff N _).mp hr_mem
    · intro w
      simp only [NQueens.cacheUpd]
      by_cases hw : w = var
      · rw [if_pos hw]
        constructor
        · rw [hsnd]
          exact nodup_append_singleton hndt hr_nt
        · intro x hx
          rcases List.mem_append.mp hx with h | h
          · rw [hsnd] at h
            exact hbndt x h
          · rw [List.mem_singleton.mp h]
            exact (mem_domain_iff N _).mp hr_mem
      · rw [if_neg hw, if_neg hw]
        exact hcache w

/-- Witness for C10 at `N = 2` with the all-zero initialisation and oracle. -/
theorem C10_solver_invariant_witness :
    NQueens.MCInv 2 (NQueens.initAssignment 2 (fun _ => 0))
      (NQueens.initCache 2 (fun _ => 0)) ∧
    (∀ assignment cache n_iter, NQueens.MCInv 2 assignment cache →
      NQueens.is_solution 2 assignment = false →
      NQueens.conflicted_vars assignment ≠ [] ∧
      (∀ (var : Int) (mc : Int × List Int),
        var = (NQueens.conflicted_vars assignment).getD
          ((fun _ : Nat => 0) n_iter % (NQueens.conflicted_vars assignment).length) 0 →
        mc = NQueens.min_conflicts_val 2 var assignment (cache var) →
        ¬ (mc.1 = -1) ∧
        NQueens.MCInv 2 (NQueens.dictSet assignment var mc.1)
          (NQueens.cacheUpd (NQueens.cacheUpd cache var mc.2) var
            (mc.2 ++ [mc.1])))) :=
  C10_solver_invariant 2 (by decide) (fun _ => 0)
    (fun _ => ⟨le_refl 0, by show (0 : Int) < (2 : Nat); decide⟩) (fun _ => 0)

/-! ## Claim C1: A* and admissible heuristics -/

theorem cexD_step :
    ∀ s : Fin 7, ∀ a ∈ cexActions s, cexD s ≤ 1 + cexD (cexResult s a) := by
  decide

theorem cexH_le_cexD : ∀ s : Fin 7, cexH s ≤ cexD s := by
  decide

theorem cex_reach_d :
    ∀ (acts : List Nat) (s : Fin 7), legalFrom cexProblem s acts = true →
      cexProblem.is_goal_state (runPath cexProblem s acts) = true →
      cexD s ≤ acts.length := by
  intro acts
  induction acts with
  | nil =>
    intro s _ hgoal
    have hs : s = (6 : Fin 7) := by
      have : s.val = 6 := by simpa [cexProblem, runPath] using hgoal
      exact Fin.ext this
    rw [hs]
    decide
  | cons a rest ih =>
    intro s hlegal hgoal
    rw [legalFrom, Bool.and_eq_true] at hlegal
    have hmem : a ∈ cexProblem.actions s := by
      rw [← List.elem_iff]
      exact hlegal.1
    have hstep := cexD_step s a hmem
    have htail := ih (cexProblem.result s a) hlegal.2
      (by simpa [runPath] using hgoal)
    simp only [List.length_cons]
    have : cexProblem.result s a = cexResult s a := rfl
    rw [this] at htail
    omega

theorem cex_admissible : Admissible cexProblem := by
  intro s acts hlegal hgoal
  exact le_trans (cexH_le_cexD s) (cex_reach_d acts s hlegal hgoal)

/-- C1 (counterexample): the heuristic of `cexProblem` is admissible, yet
`astar_search` returns a path of 5 actions although a legal 4-action path
from the start to the goal exists: the explored-set pruning never re-opens a
state first expanded along a longer route, which an admissible but
inconsistent heuristic (here at state 1) can force. -/
theorem C1_counterexample :
    Admissible cexProblem ∧
    (astar_search cexProblem 30).actionCount = some 5 ∧
    LeadsToGoal cexProblem [0, 0, 0, 0] ∧
    (4 : Nat) < 5 :=
  ⟨cex_admissible, rfl, ⟨rfl, rfl⟩, by decide⟩

theorem legalFrom_append_singleton {σ α : Type} [DecidableEq α]
    (problem : SProblem σ α) :
    ∀ (xs : List α) (s : σ) (a : α),
      legalFrom problem s (xs ++ [a]) =
        (legalFrom problem s xs && (problem.actions (runPath problem s xs)).contains a) := by
  intro xs
  induction xs with
  | nil =>
    intro s a
    simp [legalFrom, runPath]
  | cons x rest ih =>
    intro s a
    rw [List.cons_append, legalFrom, legalFrom, ih (problem.result s x) a]
    have : runPath problem (problem.result s x) rest = runPath problem s (x :: rest) := rfl
    rw [this, Bool.and_assoc]

theorem chainOk_runPath {σ α : Type} [DecidableEq σ] [DecidableEq α]
    (problem : SProblem σ α) :
    ∀ n : Node σ α, chainOk problem n = true →
      legalFrom problem problem.start (pathActions (rootToList n)) = true ∧
      runPath problem problem.start (pathActions (rootToList n)) = n.state
  | Node.mk s none a c d f => by
    intro hok
    rw [chainOk] at hok
    have hs : s = problem.start ∧ a = none := by simpa using hok
    obtain ⟨hs1, hs2⟩ := hs
    rw [rootToList, hs2]
    exact ⟨rfl, hs1.symm⟩
  | Node.mk s (some p) (some a) c d f => by
    intro hok
    rw [chainOk] at hok
    rw [Bool.and_eq_true, Bool.and_eq_true] at hok
    obtain ⟨⟨hp, hact⟩, hres⟩ := hok
    obtain ⟨ihl, ihr⟩ := chainOk_runPath problem p hp
    have hsplit : rootToList (Node.mk s (some p) (some a) c d f) =
        rootToList p ++ [Node.mk s (some p) (some a) c d f] := by
      rw [rootToList]
    rw [hsplit, pathActions, List.filterMap_append]
    have hact2 : List.filterMap Node.action [Node.mk s (some p) (some a) c d f] = [a] := rfl
    rw [hact2]
    rw [pathActions] at ihl ihr
    constructor
    · rw [legalFrom_append_singleton, ihl, ihr, Bool.true_and]
      exact hact
    · rw [runPath, List.foldl_append]
      rw [show List.foldl problem.result problem.start
        (List.filterMap Node.action (rootToList p)) = p.state from ihr]
      have hs : s = problem.result p.state a := by simpa using hres
      simp only [List.foldl_cons, List.foldl_nil, Node.state]
      exact hs.symm
  | Node.mk s (some p) none c d f => by
    intro hok
    rw [chainOk] at hok
    exact absurd hok (by simp)

theorem siftdownAux_subset {α : Type} (lt : α → α → Bool) (dflt : α) :
    ∀ (fuel : Nat) (heap : List α) (startpos : Nat) (newitem : α) (pos : Nat),
      pos < heap.length →
      ∀ x ∈ siftdownAux lt dflt fuel heap startpos newitem pos,
        x ∈ heap ∨ x = newitem := by
  intro fuel
  induction fuel with
  | zero =>
    intro heap startpos newitem pos _ x hx
    exact List.mem_or_eq_of_mem_set hx
  | succ fuel ih =>
    intro heap startpos newitem pos hpos x hx
    rw [siftdownAux] at hx
    split at hx
    · next hsp =>
      by_cases hlt : lt newitem (heap.getD ((pos - 1) / 2) dflt)
      · rw [if_pos hlt] at hx
        have hpar : (pos - 1) / 2 < heap.length := by omega
        have hpar2 : (pos - 1) / 2 < (heap.set pos (heap.getD ((pos - 1) / 2) dflt)).length := by
          simpa using hpar
        rcases ih _ _ _ _ hpar2 x hx with h | h
        · rcases List.mem_or_eq_of_mem_set h with h2 | h2
          · exact Or.inl h2
          · rw [h2, List.getD_eq_getElem _ _ hpar]
            exact Or.inl (List.getElem_mem _)
        · exact Or.inr h
      · rw [if_neg hlt] at hx
        exact List.mem_or_eq_of_mem_set hx
    · exact List.mem_or_eq_of_mem_set hx

theorem heappush_subset {α : Type} (lt : α → α → Bool) (dflt : α)
    (heap : List α) (item : α) :
    ∀ x ∈ heappush lt dflt heap item, x ∈ heap ∨ x = item := by
  intro x hx
  rw [heappush] at hx
  have hlen : (heap ++ [item]).length - 1 < (heap ++ [item]).length := by
    simp
  rcases siftdownAux_subset lt dflt _ _ _ _ _ hlen x hx with h | h
  · rcases List.mem_append.mp h with h2 | h2
    · exact Or.inl h2
    · exact Or.inr (List.mem_singleton.mp h2)
  · exact Or.inr h

theorem siftupLoop_subset {α : Type} (lt : α → α → Bool) (dflt : α) :
    ∀ (fuel : Nat) (heap : List α) (pos : Nat),
      ∀ x ∈ (siftupLoop lt dflt fuel heap pos).1, x ∈ heap := by
  intro fuel
  induction fuel with
  | zero => intro heap pos x hx; exact hx
  | succ fuel ih =>
    intro heap pos x hx
    rw [siftupLoop] at hx
    split at hx
    · next hc =>
      have hcl : (if 2 * pos + 1 + 1 < heap.length ∧
          ¬ lt (heap.getD (2 * pos + 1) dflt) (heap.getD (2 * pos + 1 + 1) dflt) = true
          then 2 * pos + 1 + 1 else 2 * pos + 1) < heap.length := by
        split
        · next hh => exact hh.1
        · exact hc
      have := ih _ _ x hx
      rcases List.mem_or_eq_of_mem_set this with h | h
      · exact h
      · rw [h, List.getD_eq_getElem _ _ hcl]
        exact List.getElem_mem _
    · exact hx

theorem siftupLoop_pos_lt {α : Type} (lt : α → α → Bool) (dflt : α) :
    ∀ (fuel : Nat) (heap : List α) (pos : Nat), pos < heap.length →
      (siftupLoop lt dflt fuel heap pos).2 < (siftupLoop lt dflt fuel heap pos).1.length := by
  intro fuel
  induction fuel with
  | zero => intro heap pos h; exact h
  | succ fuel ih =>
    intro heap pos h
    rw [siftupLoop]
    split
    · next hc =>
      refine ih _ _ ?_
      rw [List.length_set]
      split
      · next hh => exact hh.1
      · exact hc
    · exact h

theorem siftup_subset {α : Type} (lt : α → α → Bool) (dflt : α)
    (heap : List α) (pos : Nat) (hpos : pos < heap.length) :
    ∀ x ∈ siftup lt dflt heap pos, x ∈ heap := by
  intro x hx
  rw [siftup] at hx
  have h2 := siftupLoop_pos_lt lt dflt heap.length heap pos hpos
  rcases siftdownAux_subset lt dflt _ _ _ _ _ h2 x hx with h | h
  · exact siftupLoop_subset lt dflt _ _ _ x h
  · rw [h, List.getD_eq_getElem _ _ hpos]
    exact List.getElem_mem _

theorem heappop_subset {α : Type} (lt : α → α → Bool) (dflt : α)
    (heap : List α) (r : α) (rest : List α)
    (hpop : heappop lt dflt heap = some (r, rest)) :
    r ∈ heap ∧ ∀ x ∈ rest, x ∈ heap := by
  rw [heappop] at hpop
  rcases hlast : heap.getLast? with _ | lastelt
  · rw [hlast] at hpop
    exact absurd hpop (by simp)
  · rw [hlast] at hpop
    simp only [] at hpop
    have hlmem : lastelt ∈ heap := List.mem_of_mem_getLast? hlast
    have hdsub : ∀ y ∈ heap.dropLast, y ∈ heap := fun y hy =>
      (List.dropLast_sublist heap).subset hy
    split at hpop
    · next hlen =>
      have hinj := Option.some.inj hpop
      have hr : r = heap.dropLast.getD 0 dflt := (congrArg Prod.fst hinj).symm
      have hrest : rest = siftup lt dflt (heap.dropLast.set 0 lastelt) 0 :=
        (congrArg Prod.snd hinj).symm
      constructor
      · rw [hr, List.getD_eq_getElem _ _ hlen]
        exact hdsub _ (List.getElem_mem _)
      · intro x hx
        rw [hrest] at hx
        have h0 : 0 < (heap.dropLast.set 0 lastelt).length := by
          simpa using hlen
        have := siftup_subset lt dflt _ 0 h0 x hx
        rcases List.mem_or_eq_of_mem_set this with h | h
        · exact hdsub _ h
        · rw [h]; exact hlmem
    · have hinj := Option.some.inj hpop
      have hr : r = lastelt := (congrArg Prod.fst hinj).symm
      have hrest : rest = heap.dropLast := (congrArg Prod.snd hinj).symm
      refine ⟨hr ▸ hlmem, ?_⟩
      intro x hx
      rw [hrest] at hx
      exact hdsub _ hx

theorem removeFirstState_subset {σ α : Type} [DecidableEq σ]
    (l : List (Node σ α)) (s : σ) :
    ∀ x ∈ removeFirstState l s, x ∈ l := by
  induction l with
  | nil => intro x hx; exact hx
  | cons n rest ih =>
    intro x hx
    rw [removeFirstState] at hx
    split at hx
    · exact List.mem_cons_of_mem _ hx
    · rcases List.mem_cons.mp hx with h | h
      · rw [h]; exact List.mem_cons_self _ _
      · exact List.mem_cons_of_mem _ (ih x h)

theorem astarReplaceLoop_subset {σ α : Type} [DecidableEq σ]
    (dflt : Node σ α) (child : Node σ α) :
    ∀ (fuel : Nat) (frontier : List (Node σ α)) (i : Nat),
      ∀ x ∈ astarReplaceLoop dflt frontier child i fuel,
        x ∈ frontier ∨ x = child := by
  intro fuel
  induction fuel with
  | zero => intro frontier i x hx; exact Or.inl hx
  | succ fuel ih =>
    intro frontier i x hx
    rw [astarReplaceLoop] at hx
    split at hx
    · simp only [] at hx
      split at hx
      · rcases ih _ _ x hx with h | h
        · rcases heappush_subset nodeLt dflt _ child x h with h2 | h2
          · exact Or.inl (removeFirstState_subset _ _ x h2)
          · exact Or.inr h2
        · exact Or.inr h
      · exact ih _ _ x hx
    · exact Or.inl hx

theorem chainOk_mk_child {σ α : Type} [DecidableEq σ] [DecidableEq α]
    (problem : SProblem σ α) (n : Node σ α) (a : α)
    (hok : chainOk problem n = true) (ha : a ∈ problem.actions n.state)
    (c d f : Nat) :
    chainOk problem (Node.mk (problem.result n.state a) (some n) (some a) c d f)
      = true := by
  rw [chainOk, Bool.and_eq_true, Bool.and_eq_true]
  refine ⟨⟨hok, ?_⟩, by simp⟩
  exact List.elem_iff.mpr ha

theorem astarChildLoop_chainOk {σ α : Type} [DecidableEq σ] [DecidableEq α]
    (problem : SProblem σ α) (dflt : Node σ α) (node : Node σ α)
    (explored : List σ) (hnode : chainOk problem node = true) :
    ∀ (acts : List α) (frontier : List (Node σ α)),
      (∀ a ∈ acts, a ∈ problem.actions node.state) →
      (∀ x ∈ frontier, chainOk problem x = true) →
      ∀ x ∈ astarChildLoop problem dflt node explored frontier acts,
        chainOk problem x = true := by
  intro acts
  induction acts with
  | nil =>
    intro frontier _ hfr x hx
    rw [astarChildLoop] at hx
    exact hfr x hx
  | cons a rest ih =>
    intro frontier hacts hfr x hx
    rw [astarChildLoop] at hx
    have hchild : chainOk problem (match node.child_node problem a with
        | Node.mk s p act c d _ => Node.mk s p act c d (c + problem.h s)) = true := by
      cases node with
      | mk s0 p0 a0 c0 d0 f0 =>
        exact chainOk_mk_child problem (Node.mk s0 p0 a0 c0 d0 f0) a hnode
          (hacts a (List.mem_cons_self _ _)) _ _ _
    refine ih _ (fun b hb => hacts b (List.mem_cons_of_mem _ hb)) ?_ x hx
    intro y hy
    revert hy
    split
    · intro hy
      rcases heappush_subset nodeLt dflt _ _ y hy with h | h
      · exact hfr y h
      · rw [h]; exact hchild
    · split
      · intro hy
        rcases astarReplaceLoop_subset dflt _ _ _ _ y hy with h | h
        · exact hfr y h
        · rw [h]; exact hchild
      · intro hy
        exact hfr y hy

theorem astarLoop_sound {σ α : Type} [DecidableEq σ] [DecidableEq α]
    (problem : SProblem σ α) (dflt : Node σ α) :
    ∀ (fuel : Nat) (frontier : List (Node σ α)) (explored : List σ),
      (∀ n ∈ frontier, chainOk problem n = true) →
      ∀ l, astarLoop problem dflt fuel frontier explored = SearchRes.path l →
      ∃ n, chainOk problem n = true ∧ problem.is_goal_state n.state = true ∧
        l = solution n := by
  intro fuel
  induction fuel with
  | zero =>
    intro frontier explored _ l h
    rw [astarLoop] at h
    exact absurd h (by simp)
  | succ fuel ih =>
    intro frontier explored hfr l h
    rw [astarLoop] at h
    split at h
    · exact absurd h (by simp)
    · next node fr hpop =>
      obtain ⟨hnode, hfr'⟩ := heappop_subset nodeLt dflt frontier node fr hpop
      have hnodeOk := hfr node hnode
      split at h
      · next hgoal =>
        injection h with h2
        exact ⟨node, hnodeOk, hgoal, h2.symm⟩
      · split at h
        · exact ih _ _ (astarChildLoop_chainOk problem dflt node _ hnodeOk _ fr
            (fun b hb => hb) (fun x hx => hfr x (hfr' x hx))) l h
        · exact ih _ _ (fun x hx => hfr x (hfr' x hx)) l h

/-- C1 (amended): whenever `astar_search` returns a path rather than failure,
the returned path is sound: its recorded actions form a legal action sequence
leading from the start state to a goal state.  (Minimality fails even for
admissible heuristics, see the counterexample.) -/
theorem C1_astar_sound {σ α : Type} [DecidableEq σ] [DecidableEq α]
    (problem : SProblem σ α) (fuel : Nat) (l : List (Node σ α))
    (hres : astar_search problem fuel = SearchRes.path l) :
    LeadsToGoal problem (pathActions l) := by
  rw [astar_search] at hres
  have hrootOk : chainOk problem (astarRoot problem) = true := by
    show chainOk problem
      (Node.mk problem.start none none (0 + problem.h problem.start) 0 0) = true
    rw [chainOk]
    simp
  split at hres
  · next hgoal =>
    injection hres with h2
    rw [← h2, solution_eq_rootToList]
    obtain ⟨hlg, hrp⟩ := chainOk_runPath problem _ hrootOk
    refine ⟨hlg, ?_⟩
    rw [hrp]
    exact hgoal
  · have hfr0 : ∀ x ∈ heappush nodeLt (Node.init problem.start none none 0) []
        (astarRoot problem), chainOk problem x = true := by
      intro x hx
      rcases heappush_subset nodeLt _ _ _ x hx with h | h
      · exact absurd h (List.not_mem_nil x)
      · rw [h]; exact hrootOk
    obtain ⟨n, hok, hgoal, hl⟩ := astarLoop_sound problem _ _ _ _ hfr0 l hres
    rw [hl, solution_eq_rootToList]
    obtain ⟨hlg, hrp⟩ := chainOk_runPath problem n hok
    refine ⟨hlg, ?_⟩
    rw [hrp]
    exact hgoal

/-- Witness for the amended C1 on the counterexample problem's returned path. -/
theorem C1_astar_sound_witness :
    LeadsToGoal cexProblem (pathActions (resNodes (astar_search cexProblem 30))) :=
  C1_astar_sound cexProblem 30 (resNodes (astar_search cexProblem 30)) rfl

/-! ## Claim C2: breadth-first search returns a shortest path -/

theorem child_node_depth {σ α : Type} (problem : SProblem σ α) (n : Node σ α)
    (a : α) : (n.child_node problem a).depth = n.depth + 1 := by
  cases n
  rfl

theorem allNonGoal_append_singleton {σ α : Type} (problem : SProblem σ α) :
    ∀ (xs : List α) (s : σ) (a : α),
      allNonGoal problem s (xs ++ [a]) =
        (allNonGoal problem s xs &&
          ! problem.is_goal_state (problem.result (runPath problem s xs) a)) := by
  intro xs
  induction xs with
  | nil =>
    intro s a
    simp [allNonGoal, runPath]
  | cons x rest ih =>
    intro s a
    rw [List.cons_append, allNonGoal, allNonGoal, ih (problem.result s x) a]
    have : runPath problem (problem.result s x) rest = runPath problem s (x :: rest) := rfl
    rw [this, Bool.and_assoc]

theorem pathActions_child {σ α : Type} (problem : SProblem σ α) (n : Node σ α)
    (a : α) :
    pathActions (rootToList (n.child_node problem a)) =
      pathActions (rootToList n) ++ [a] := by
  rw [rootToList_child, pathActions, List.filterMap_append, ← pathActions]
  have : List.filterMap Node.action [n.child_node problem a] = [a] := by
    simp [List.filterMap, child_node_action]
  rw [this]

theorem NGNode_child {σ α : Type} [DecidableEq σ] [DecidableEq α]
    (problem : SProblem σ α) (n : Node σ α) (a : α) (hn : NGNode problem n)
    (ha : a ∈ problem.actions n.state)
    (hng : problem.is_goal_state (problem.result n.state a) = false) :
    NGNode problem (n.child_node problem a) := by
  obtain ⟨hl, hg, hr, hd⟩ := hn
  refine ⟨?_, ?_, ?_, ?_⟩
  · rw [pathActions_child, legalFrom_append_singleton, hl, hr, Bool.true_and]
    exact List.elem_iff.mpr ha
  · rw [pathActions_child, allNonGoal_append_singleton, hg, hr, Bool.true_and, hng]
    rfl
  · rw [pathActions_child, runPath, List.foldl_append]
    rw [show List.foldl problem.result problem.start
      (pathActions (rootToList n)) = n.state from hr]
    rw [child_node_state]
    rfl
  · rw [pathActions_child, List.length_append, hd, child_node_depth]
    rfl

theorem NGNode_reach {σ α : Type} [DecidableEq σ] [DecidableEq α]
    (problem : SProblem σ α) (n : Node σ α) (hn : NGNode problem n) :
    NGReach problem n.depth n.state := by
  obtain ⟨hl, hg, hr, hd⟩ := hn
  exact ⟨pathActions (rootToList n), hd, hl, hg, hr⟩

theorem NGReach_zero {σ α : Type} [DecidableEq α] (problem : SProblem σ α)
    (s : σ) (h : NGReach problem 0 s) : s = problem.start := by
  obtain ⟨acts, hlen, _, _, hrun⟩ := h
  rw [List.length_eq_zero.mp hlen] at hrun
  exact hrun.symm

theorem NGReach_start {σ α : Type} [DecidableEq α] (problem : SProblem σ α)
    (h : problem.is_goal_state problem.start = false) :
    NGReach problem 0 problem.start := by
  refine ⟨[], rfl, rfl, ?_, rfl⟩
  rw [allNonGoal, h]
  rfl

theorem NGReach_succ {σ α : Type} [DecidableEq α] (problem : SProblem σ α)
    (m : Nat) (s : σ) (h : NGReach problem (m + 1) s) :
    ∃ (s' : σ) (a : α), NGReach problem m s' ∧ a ∈ problem.actions s' ∧
      problem.result s' a = s ∧ problem.is_goal_state s = false := by
  obtain ⟨acts, hlen, hleg, hng, hrun⟩ := h
  rcases List.eq_nil_or_concat acts with rfl | ⟨ys, a, rfl⟩
  · exact absurd hlen (by simp)
  · rw [List.concat_eq_append] at hlen hleg hng hrun
    rw [legalFrom_append_singleton] at hleg
    rw [allNonGoal_append_singleton] at hng
    rw [Bool.and_eq_true] at hleg hng
    have hrun2 : problem.result (runPath problem problem.start ys) a = s := by
      rw [← hrun]
      show problem.result (runPath problem problem.start ys) a =
        List.foldl problem.result problem.start (ys ++ [a])
      rw [List.foldl_append]
      rfl
    refine ⟨runPath problem problem.start ys, a, ?_, ?_, hrun2, ?_⟩
    · refine ⟨ys, ?_, hleg.1, hng.1, rfl⟩
      have := hlen
      rw [List.length_append] at this
      simpa using this
    · rw [← List.elem_iff]
      exact hleg.2
    · have := hng.2
      rw [hrun2] at this
      simpa using this


theorem allNonGoal_endpoint {σ α : Type} (problem : SProblem σ α) :
    ∀ (w : List α) (s0 : σ), allNonGoal problem s0 w = true →
      problem.is_goal_state (runPath problem s0 w) = false := by
  intro w
  induction w with
  | nil =>
    intro s0 h
    rw [allNonGoal] at h
    simpa using h
  | cons a rest ih =>
    intro s0 h
    rw [allNonGoal, Bool.and_eq_true] at h
    exact ih (problem.result s0 a) h.2

theorem NGReach_nonGoal {σ α : Type} [DecidableEq α] (problem : SProblem σ α)
    (m : Nat) (s : σ) (h : NGReach problem m s) :
    problem.is_goal_state s = false := by
  obtain ⟨w, _, _, hng, hrun⟩ := h
  rw [← hrun]
  exact allNonGoal_endpoint problem w problem.start hng

theorem NGReach_extend {σ α : Type} [DecidableEq α] (problem : SProblem σ α)
    (m : Nat) (s : σ) (a : α) (h : NGReach problem m s)
    (ha : a ∈ problem.actions s)
    (hng : problem.is_goal_state (problem.result s a) = false) :
    NGReach problem (m + 1) (problem.result s a) := by
  obtain ⟨w, hlen, hleg, hngw, hrun⟩ := h
  refine ⟨w ++ [a], by simp [hlen], ?_, ?_, ?_⟩
  · rw [legalFrom_append_singleton, hleg, hrun, Bool.true_and]
    exact List.elem_iff.mpr ha
  · rw [allNonGoal_append_singleton, hngw, hrun, Bool.true_and, hng]
    rfl
  · rw [runPath, List.foldl_append]
    rw [show List.foldl problem.result problem.start w = s from hrun]
    rfl

theorem goal_path_extract {σ α : Type} [DecidableEq α] (problem : SProblem σ α) :
    ∀ (acts : List α) (s : σ) (m : Nat), NGReach problem m s →
      legalFrom problem s acts = true →
      problem.is_goal_state (runPath problem s acts) = true →
      ∃ (k : Nat) (s' : σ) (a' : α), k + 1 ≤ m + acts.length ∧
        NGReach problem k s' ∧ a' ∈ problem.actions s' ∧
        problem.is_goal_state (problem.result s' a') = true := by
  intro acts
  induction acts with
  | nil =>
    intro s m hreach _ hgoal
    have := NGReach_nonGoal problem m s hreach
    rw [show runPath problem s [] = s from rfl] at hgoal
    rw [this] at hgoal
    exact absurd hgoal (by simp)
  | cons a rest ih =>
    intro s m hreach hleg hgoal
    rw [legalFrom, Bool.and_eq_true] at hleg
    have ha : a ∈ problem.actions s := by
      rw [← List.elem_iff]
      exact hleg.1
    by_cases hg2 : problem.is_goal_state (problem.result s a) = true
    · exact ⟨m, s, a, by simp, hreach, ha, hg2⟩
    · have hg2' : problem.is_goal_state (problem.result s a) = false := by
        simpa using hg2
      have hreach2 := NGReach_extend problem m s a hreach ha hg2'
      have hgoal2 : problem.is_goal_state
          (runPath problem (problem.result s a) rest) = true := hgoal
      obtain ⟨k, s', a', hk, h1, h2, h3⟩ :=
        ih (problem.result s a) (m + 1) hreach2 hleg.2 hgoal2
      refine ⟨k, s', a', ?_, h1, h2, h3⟩
      simp only [List.length_cons]
      omega

theorem bfsLoop_nil {σ α : Type} [DecidableEq σ] (problem : SProblem σ α)
    (fuel : Nat) (explored : List σ) :
    bfsLoop problem fuel [] explored = SearchRes.failure := by
  cases fuel <;> rfl

theorem pairwise_head_le {σ α : Type} (hd : Node σ α) (tl : List (Node σ α))
    (hp : List.Pairwise (fun a b : Node σ α => a.depth ≤ b.depth) (hd :: tl)) :
    ∀ n ∈ hd :: tl, hd.depth ≤ n.depth := by
  intro n hn
  rcases List.mem_cons.mp hn with h | h
  · rw [h]
  · exact (List.pairwise_cons.mp hp).1 n h

theorem bfsChildLoop_inl_spec {σ α : Type} [DecidableEq σ]
    (problem : SProblem σ α) (node : Node σ α) (explored' : List σ) :
    ∀ (acts : List α) (fr0 : List (Node σ α)) (r : SearchRes σ α),
      bfsChildLoop problem node explored' fr0 acts = Sum.inl r →
      ∃ a ∈ acts, r = SearchRes.path (solution (node.child_node problem a)) ∧
        problem.is_goal_state ((node.child_node problem a).state) = true := by
  intro acts
  induction acts with
  | nil =>
    intro fr0 r h
    rw [bfsChildLoop] at h
    exact absurd h (by simp)
  | cons a rest ih =>
    intro fr0 r h
    rw [bfsChildLoop] at h
    split at h
    · split at h
      · next hgoal =>
        injection h with h2
        exact ⟨a, List.mem_cons_self _ _, h2.symm, hgoal⟩
      · obtain ⟨a', ha', h1, h2⟩ := ih _ r h
        exact ⟨a', List.mem_cons_of_mem _ ha', h1, h2⟩
    · obtain ⟨a', ha', h1, h2⟩ := ih _ r h
      exact ⟨a', List.mem_cons_of_mem _ ha', h1, h2⟩

theorem bfsChildLoop_inr_spec {σ α : Type} [DecidableEq σ]
    (problem : SProblem σ α) (node : Node σ α) (explored' : List σ)
    (hexp : ∀ s ∈ explored', problem.is_goal_state s = false) :
    ∀ (acts : List α) (fr0 fr' : List (Node σ α)),
      (∀ n0 ∈ fr0, problem.is_goal_state n0.state = false) →
      bfsChildLoop problem node explored' fr0 acts = Sum.inr fr' →
      (∃ ch, fr' = fr0 ++ ch ∧
        (∀ c ∈ ch, ∃ a, a ∈ acts ∧ c = node.child_node problem a ∧
          problem.is_goal_state c.state = false ∧ c.state ∉ explored' ∧
          (∀ n0 ∈ fr0, n0.state ≠ c.state))) ∧
      (∀ a ∈ acts, problem.is_goal_state (problem.result node.state a) = false) ∧
      (∀ a ∈ acts, problem.result node.state a ∈ explored' ∨
        problem.result node.state a ∈ fr'.map Node.state) := by
  intro acts
  induction acts with
  | nil =>
    intro fr0 fr' _ h
    rw [bfsChildLoop] at h
    injection h with h2
    refine ⟨⟨[], by rw [← h2, List.append_nil], ?_⟩, ?_, ?_⟩
    · intro c hc
      exact absurd hc (List.not_mem_nil c)
    · intro a ha
      exact absurd ha (List.not_mem_nil a)
    · intro a ha
      exact absurd ha (List.not_mem_nil a)
  | cons a rest ih =>
    intro fr0 fr' hfr0 h
    rw [bfsChildLoop] at h
    split at h
    · next hg =>
      split at h
      · exact absurd h (by simp)
      · next hgng =>
        have hgng' : problem.is_goal_state
            ((node.child_node problem a).state) = false := by
          simpa using hgng
        have hfr0' : ∀ n0 ∈ fr0 ++ [node.child_node problem a],
            problem.is_goal_state n0.state = false := by
          intro n0 hn0
          rcases List.mem_append.mp hn0 with h1 | h1
          · exact hfr0 n0 h1
          · rw [List.mem_singleton.mp h1]
            exact hgng'
        obtain ⟨⟨ch', hfr'eq, hch'⟩, hng', hcl'⟩ := ih _ fr' hfr0' h
        have hmemall : ∀ n0 ∈ fr0, n0.state ≠ (node.child_node problem a).state := by
          have := hg.2
          rw [List.all_eq_true] at this
          intro n0 hn0
          simpa using this n0 hn0
        refine ⟨⟨node.child_node problem a :: ch', ?_, ?_⟩, ?_, ?_⟩
        · rw [hfr'eq, List.append_assoc]
          rfl
        · intro c hc
          rcases List.mem_cons.mp hc with h1 | h1
          · exact ⟨a, List.mem_cons_self _ _, h1, h1 ▸ hgng', h1 ▸ hg.1, by
              intro n0 hn0
              rw [h1]
              exact hmemall n0 hn0⟩
          · obtain ⟨a', ha', h2, h3, h4, h5⟩ := hch' c h1
            exact ⟨a', List.mem_cons_of_mem _ ha', h2, h3, h4,
              fun n0 hn0 => h5 n0 (List.mem_append_left _ hn0)⟩
        · intro b hb
          rcases List.mem_cons.mp hb with h1 | h1
          · rw [h1, ← child_node_state]
            exact hgng'
          · exact hng' b h1
        · intro b hb
          rcases List.mem_cons.mp hb with h1 | h1
          · right
            rw [h1, ← child_node_state]
            refine List.mem_map.mpr ⟨node.child_node problem a, ?_, rfl⟩
            rw [hfr'eq]
            exact List.mem_append_left _ (List.mem_append_right _ (List.mem_singleton.mpr rfl))
          · exact hcl' b h1
    · next hgf =>
      obtain ⟨⟨ch, hfr'eq, hch⟩, hng, hcl⟩ := ih _ fr' hfr0 h
      have hskip : (node.child_node problem a).state ∈ explored' ∨
          ∃ n0 ∈ fr0, n0.state = (node.child_node problem a).state := by
        by_contra hcon
        push_neg at hcon
        refine hgf ⟨hcon.1, ?_⟩
        rw [List.all_eq_true]
        intro n0 hn0
        simpa using hcon.2 n0 hn0
      refine ⟨⟨ch, hfr'eq, fun c hc => ?_⟩, ?_, ?_⟩
      · obtain ⟨a', ha', h2, h3, h4, h5⟩ := hch c hc
        exact ⟨a', List.mem_cons_of_mem _ ha', h2, h3, h4, h5⟩
      · intro b hb
        rcases List.mem_cons.mp hb with h1 | h1
        · rw [h1, ← child_node_state]
          rcases hskip with h2 | ⟨n0, hn0, h2⟩
          · exact hexp _ h2
          · rw [← h2]
            exact hfr0 n0 hn0
        · exact hng b h1
      · intro b hb
        rcases List.mem_cons.mp hb with h1 | h1
        · rw [h1, ← child_node_state]
          rcases hskip with h2 | ⟨n0, hn0, h2⟩
          · exact Or.inl h2
          · right
            refine List.mem_map.mpr ⟨n0, ?_, h2⟩
            rw [hfr'eq]
            exact List.mem_append_left _ hn0
        · exact hcl b h1

theorem bfsLoop_minimal {σ α : Type} [DecidableEq σ] [DecidableEq α]
    (problem : SProblem σ α) :
    ∀ (fuel : Nat) (frontier : List (Node σ α)) (explored : List σ)
      (l : List (Node σ α)),
      BFSInv problem frontier explored →
      bfsLoop problem fuel frontier explored = SearchRes.path l →
      LeadsToGoal problem (pathActions l) ∧
      ∀ acts : List α, LeadsToGoal problem acts →
        (pathActions l).length ≤ acts.length := by
  intro fuel
  induction fuel with
  | zero =>
    intro frontier explored l _ h
    rw [bfsLoop] at h
    exact absurd h (by simp)
  | succ fuel ih =>
    intro frontier explored l hinv h
    rcases frontier with _ | ⟨node, rest⟩
    · rw [bfsLoop] at h
      exact absurd h (by simp)
    · rw [bfsLoop] at h
      have hnode : NGNode problem node := hinv.valid node (List.mem_cons_self _ _)
      have hnodeNG : problem.is_goal_state node.state = false :=
        NGReach_nonGoal problem node.depth node.state (NGNode_reach problem node hnode)
      have hexp' : ∀ s ∈ node.state :: explored,
          problem.is_goal_state s = false := by
        intro s hs
        rcases List.mem_cons.mp hs with h1 | h1
        · rw [h1]; exact hnodeNG
        · exact hinv.noGoalExplored s h1
      have hrestNG : ∀ n0 ∈ rest, problem.is_goal_state n0.state = false := by
        intro n0 hn0
        exact NGReach_nonGoal problem n0.depth n0.state
          (NGNode_reach problem n0 (hinv.valid n0 (List.mem_cons_of_mem _ hn0)))
      have hrest2 : ∀ n0 ∈ rest, node.depth ≤ n0.depth :=
        fun n0 hn0 => (List.pairwise_cons.mp hinv.sorted).1 n0 hn0
      have hlevel : ∀ n0 ∈ node :: rest, n0.depth ≤ node.depth + 1 :=
        hinv.twoLevel node rfl
      split at h
      · next hdep =>
        split at h
        · next r heq =>
          -- early goal return from the child loop
          obtain ⟨a, hamem, hr, hgoalc⟩ :=
            bfsChildLoop_inl_spec problem node (node.state :: explored) _ rest r heq
          rw [hr] at h
          injection h with h2
          have hpa : pathActions l =
              pathActions (rootToList node) ++ [a] := by
            rw [← h2, solution_eq_rootToList, pathActions_child]
          have hlen : (pathActions l).length = node.depth + 1 := by
            rw [hpa, List.length_append, hnode.2.2.2]
            rfl
          constructor
          · constructor
            · rw [hpa, legalFrom_append_singleton, hnode.1, hnode.2.2.1,
                Bool.true_and]
              exact List.elem_iff.mpr hamem
            · rw [hpa, runPath, List.foldl_append]
              rw [show List.foldl problem.result problem.start
                (pathActions (rootToList node)) = node.state from hnode.2.2.1]
              rw [child_node_state problem node a] at hgoalc
              exact hgoalc
          · intro acts' hacts'
            rw [hlen]
            by_contra hcon
            push_neg at hcon
            have hsmall : acts'.length ≤ node.depth := by omega
            obtain ⟨k, s', a', hk, hreach', ha', hga'⟩ :=
              goal_path_extract problem acts' problem.start 0
                (NGReach_start problem hinv.startNonGoal) hacts'.1 hacts'.2
            have hkD : k < node.depth := by omega
            have hk10 : k ≤ 10 := by omega
            have hsE : s' ∈ explored := by
              refine hinv.coveredE s' k hreach' hk10 ?_
              intro hd hhd
              injection hhd with hhd2
              rw [← hhd2]
              exact hkD
            have := hinv.expandedGoalFree s' hsE ⟨k, hk10, hreach'⟩ a' ha'
            rw [this] at hga'
            exact absurd hga' (by simp)
        · next fr' heq =>
          -- the child loop finished: recurse with the new frontier
          obtain ⟨⟨ch, hfr'eq, hch⟩, hng, hcl⟩ :=
            bfsChildLoop_inr_spec problem node (node.state :: explored) hexp'
              _ rest fr' hrestNG heq
          have hchNode : ∀ c ∈ ch, NGNode problem c ∧ c.depth = node.depth + 1 := by
            intro c hc
            obtain ⟨a, ha, hcd, hcng, _, _⟩ := hch c hc
            have hcng2 : problem.is_goal_state
                (problem.result node.state a) = false := by
              rw [← child_node_state problem node a, ← hcd]
              exact hcng
            constructor
            · rw [hcd]
              exact NGNode_child problem node a hnode ha hcng2
            · rw [hcd]
              exact child_node_depth problem node a
          rcases hfre : fr' with _ | ⟨hd0, tl0⟩
          · rw [hfre, bfsLoop_nil] at h
            exact absurd h (by simp)
          · have hfrne : fr' ≠ [] := by rw [hfre]; exact List.cons_ne_nil _ _
            -- membership in the new frontier
            have hmem' : ∀ n0 ∈ fr', n0 ∈ rest ∨ n0 ∈ ch := by
              intro n0 hn0
              rw [hfr'eq] at hn0
              exact List.mem_append.mp hn0
            have hvalid' : ∀ n0 ∈ fr', NGNode problem n0 := by
              intro n0 hn0
              rcases hmem' n0 hn0 with h1 | h1
              · exact hinv.valid n0 (List.mem_cons_of_mem _ h1)
              · exact (hchNode n0 h1).1
            have hsorted' : List.Pairwise
                (fun a b : Node σ α => a.depth ≤ b.depth) fr' := by
              rw [hfr'eq, List.pairwise_append]
              refine ⟨(List.pairwise_cons.mp hinv.sorted).2, ?_, ?_⟩
              · refine List.Pairwise.imp_of_mem ?_
                  (List.pairwise_of_forall_mem_list ?_ : List.Pairwise (fun _ _ => True) ch)
                · intro a b ha hb _
                  rw [(hchNode a ha).2, (hchNode b hb).2]
                · intro a _ b _
                  trivial
              · intro a ha b hb
                rw [(hchNode b hb).2]
                exact hlevel a (List.mem_cons_of_mem _ ha)
            have hheadmin : ∀ hd, fr'.head? = some hd → ∀ n0 ∈ fr', hd.depth ≤ n0.depth := by
              intro hd hhd n0 hn0
              rw [hfre] at hhd hn0
              injection hhd with hhd2
              rw [← hhd2]
              exact pairwise_head_le hd0 tl0 (hfre ▸ hsorted') n0 hn0
            have hheadlevel : ∀ hd, fr'.head? = some hd →
                node.depth ≤ hd.depth ∧ hd.depth ≤ node.depth + 1 := by
              intro hd hhd
              rw [hfre] at hhd
              injection hhd with hhd2
              have hdm : hd ∈ fr' := by
                rw [hfre, ← hhd2]
                exact List.mem_cons_self _ _
              rcases hmem' hd hdm with h1 | h1
              · exact ⟨hrest2 hd h1, hlevel hd (List.mem_cons_of_mem _ h1)⟩
              · rw [(hchNode hd h1).2]
                exact ⟨Nat.le_succ _, le_refl _⟩
            refine (ih fr' (node.state :: explored) l ?_ h)
            refine ⟨hvalid', hsorted', ?_, hinv.startNonGoal, hexp', ?_, ?_, ?_, ?_, ?_⟩
            · -- twoLevel
              intro hd hhd n0 hn0
              have hl2 := (hheadlevel hd hhd).1
              rcases hmem' n0 hn0 with h1 | h1
              · have := hlevel n0 (List.mem_cons_of_mem _ h1)
                omega
              · have := (hchNode n0 h1).2
                omega
            · -- covered
              intro s k hreach hk11 hhd
              rcases hh : fr'.head? with _ | hd
              · rw [hfre] at hh
                exact absurd hh (by simp)
              · have hkmin := hhd hd hh
                have hbound := hheadlevel hd hh
                by_cases hkD : k ≤ node.depth
                · have := hinv.covered s k hreach hk11 ?_
                  · rcases this with h1 | h1
                    · exact Or.inl (List.mem_cons_of_mem _ h1)
                    · rcases List.mem_map.mp h1 with ⟨n0, hn0, hst⟩
                      rcases List.mem_cons.mp hn0 with h2 | h2
                      · left
                        rw [← hst, h2]
                        exact List.mem_cons_self _ _
                      · right
                        refine List.mem_map.mpr ⟨n0, ?_, hst⟩
                        rw [hfr'eq]
                        exact List.mem_append_left _ h2
                  · intro hd2 hhd2
                    injection hhd2 with hhd3
                    rw [← hhd3]
                    exact hkD
                · -- k = node.depth + 1
                  have hkeq : k = node.depth + 1 := by omega
                  obtain ⟨s', a, hreach', ha', hres, hsng⟩ :=
                    NGReach_succ problem node.depth s (by rw [← hkeq]; exact hreach)
                  have hcov := hinv.covered s' node.depth hreach' (by omega) ?_
                  · rcases hcov with h1 | h1
                    · have := hinv.expandedClosed s' h1 ⟨node.depth, hdep, hreach'⟩ a ha'
                      rw [hres] at this
                      rcases this with h2 | h2
                      · exact Or.inl (List.mem_cons_of_mem _ h2)
                      · rcases List.mem_map.mp h2 with ⟨n0, hn0, hst⟩
                        rcases List.mem_cons.mp hn0 with h3 | h3
                        · left
                          rw [← hst, h3]
                          exact List.mem_cons_self _ _
                        · right
                          refine List.mem_map.mpr ⟨n0, ?_, hst⟩
                          rw [hfr'eq]
                          exact List.mem_append_left _ h3
                    · rcases List.mem_map.mp h1 with ⟨n0, hn0, hst⟩
                      rcases List.mem_cons.mp hn0 with h3 | h3
                      · -- s' is the popped node's state: use the closure of its children
                        have ha2 : a ∈ problem.actions node.state := by
                          rw [← h3, hst]
                          exact ha'
                        have := hcl a ha2
                        rw [show problem.result node.state a = s by
                          rw [← hres]; rw [← hst, h3]] at this
                        rcases this with h4 | h4
                        · exact Or.inl h4
                        · exact Or.inr h4
                      · -- s' still sits in the remaining frontier: depth clash
                        exfalso
                        have hmd := hinv.minDepth n0 (List.mem_cons_of_mem _ h3)
                          node.depth s' hreach' hst
                        have hn0fr : n0 ∈ fr' := by
                          rw [hfr'eq]
                          exact List.mem_append_left _ h3
                        have := hheadmin hd hh n0 hn0fr
                        omega
                  · intro hd2 hhd2
                    injection hhd2 with hhd3
                    rw [← hhd3]
            · -- coveredE
              intro s k hreach hk10 hhd
              rcases hh : fr'.head? with _ | hd
              · rw [hfre] at hh
                exact absurd hh (by simp)
              · have hkmin := hhd hd hh
                have hbound := hheadlevel hd hh
                by_cases hkD : k < node.depth
                · have := hinv.coveredE s k hreach hk10 ?_
                  · exact List.mem_cons_of_mem _ this
                  · intro hd2 hhd2
                    injection hhd2 with hhd3
                    rw [← hhd3]
                    exact hkD
                · have hkeq : k = node.depth := by omega
                  have := hinv.covered s k hreach (by omega) ?_
                  · rcases this with h1 | h1
                    · exact List.mem_cons_of_mem _ h1
                    · rcases List.mem_map.mp h1 with ⟨n0, hn0, hst⟩
                      rcases List.mem_cons.mp hn0 with h3 | h3
                      · rw [← hst, h3]
                        exact List.mem_cons_self _ _
                      · exfalso
                        have hmd := hinv.minDepth n0 (List.mem_cons_of_mem _ h3)
                          k s hreach hst
                        have hn0fr : n0 ∈ fr' := by
                          rw [hfr'eq]
                          exact List.mem_append_left _ h3
                        have := hheadmin hd hh n0 hn0fr
                        omega
                  · intro hd2 hhd2
                    injection hhd2 with hhd3
                    rw [← hhd3, hkeq]
            · -- minDepth
              intro n0 hn0 k s hreach hst
              rcases hmem' n0 hn0 with h1 | h1
              · exact hinv.minDepth n0 (List.mem_cons_of_mem _ h1) k s hreach hst
              · obtain ⟨a, ha, hcd, hcng, hnexp, hnfr0⟩ := hch n0 h1
                rw [(hchNode n0 h1).2]
                by_contra hcon
                push_neg at hcon
                have hk : k ≤ node.depth := by omega
                have := hinv.covered s k hreach (by omega) ?_
                · rcases this with h2 | h2
                  · refine hnexp ?_
                    rw [hst]
                    exact List.mem_cons_of_mem _ h2
                  · rcases List.mem_map.mp h2 with ⟨n1, hn1, hst1⟩
                    rcases List.mem_cons.mp hn1 with h3 | h3
                    · refine hnexp ?_
                      rw [hst, ← hst1, h3]
                      exact List.mem_cons_self _ _
                    · exact hnfr0 n1 h3 (by rw [hst1, ← hst])
                · intro hd2 hhd2
                  injection hhd2 with hhd3
                  rw [← hhd3]
                  exact hk
            · -- expandedGoalFree
              intro s0 hs0 hks a ha
              rcases List.mem_cons.mp hs0 with h1 | h1
              · rw [h1]
                rw [h1] at ha
                exact hng a ha
              · exact hinv.expandedGoalFree s0 h1 hks a ha
            · -- expandedClosed
              intro s0 hs0 hks a ha
              rcases List.mem_cons.mp hs0 with h1 | h1
              · have := hcl a (by rw [← h1]; exact ha)
                rw [h1]
                exact this
              · have := hinv.expandedClosed s0 h1 hks a ha
                rcases this with h2 | h2
                · exact Or.inl (List.mem_cons_of_mem _ h2)
                · rcases List.mem_map.mp h2 with ⟨n0, hn0, hst⟩
                  rcases List.mem_cons.mp hn0 with h3 | h3
                  · left
                    rw [← hst, h3]
                    exact List.mem_cons_self _ _
                  · right
                    refine List.mem_map.mpr ⟨n0, ?_, hst⟩
                    rw [hfr'eq]
                    exact List.mem_append_left _ h3
      · next hdep =>
        -- depth cap exceeded: the node is dropped after being explored
        rcases hre : rest with _ | ⟨r0, rtl⟩
        · rw [hre, bfsLoop_nil] at h
          exact absurd h (by simp)
        · refine ih rest (node.state :: explored) l ?_ h
          have hD : 10 < node.depth := by omega
          refine ⟨?_, (List.pairwise_cons.mp hinv.sorted).2, ?_, hinv.startNonGoal,
            hexp', ?_, ?_, ?_, ?_, ?_⟩
          · intro n0 hn0
            exact hinv.valid n0 (List.mem_cons_of_mem _ hn0)
          · intro hd hhd n0 hn0
            have hhdm : hd ∈ rest := List.mem_of_mem_head? hhd
            have h1 := hlevel n0 (List.mem_cons_of_mem _ hn0)
            have h2 := hrest2 hd hhdm
            omega
          · intro s k hreach hk11 hhd
            rcases hh : rest.head? with _ | hd
            · rw [hre] at hh
              exact absurd hh (by simp)
            · have hkmin := hhd hd hh
              have hdm : hd ∈ rest := List.mem_of_mem_head? hh
              by_cases hkD : k ≤ node.depth
              · have := hinv.covered s k hreach hk11 ?_
                · rcases this with h1 | h1
                  · exact Or.inl (List.mem_cons_of_mem _ h1)
                  · rcases List.mem_map.mp h1 with ⟨n0, hn0, hst⟩
                    rcases List.mem_cons.mp hn0 with h3 | h3
                    · left
                      rw [← hst, h3]
                      exact List.mem_cons_self _ _
                    · exact Or.inr (List.mem_map.mpr ⟨n0, h3, hst⟩)
                · intro hd2 hhd2
                  injection hhd2 with hhd3
                  rw [← hhd3]
                  exact hkD
              · exfalso
                omega
          · intro s k hreach hk10 hhd
            have := hinv.coveredE s k hreach hk10 ?_
            · exact List.mem_cons_of_mem _ this
            · intro hd2 hhd2
              injection hhd2 with hhd3
              rw [← hhd3]
              omega
          · intro n0 hn0 k s hreach hst
            exact hinv.minDepth n0 (List.mem_cons_of_mem _ hn0) k s hreach hst
          · intro s0 hs0 hks a ha
            rcases List.mem_cons.mp hs0 with h1 | h1
            · exfalso
              obtain ⟨k, hk10, hreach⟩ := hks
              have := hinv.minDepth node (List.mem_cons_self _ _) k s0 hreach h1.symm
              omega
            · exact hinv.expandedGoalFree s0 h1 hks a ha
          · intro s0 hs0 hks a ha
            rcases List.mem_cons.mp hs0 with h1 | h1
            · exfalso
              obtain ⟨k, hk10, hreach⟩ := hks
              have := hinv.minDepth node (List.mem_cons_self _ _) k s0 hreach h1.symm
              omega
            · have := hinv.expandedClosed s0 h1 hks a ha
              rcases this with h2 | h2
              · exact Or.inl (List.mem_cons_of_mem _ h2)
              · rcases List.mem_map.mp h2 with ⟨n0, hn0, hst⟩
                rcases List.mem_cons.mp hn0 with h3 | h3
                · left
                  rw [← hst, h3]
                  exact List.mem_cons_self _ _
                · exact Or.inr (List.mem_map.mpr ⟨n0, h3, hst⟩)

theorem BFSInv_init {σ α : Type} [DecidableEq σ] [DecidableEq α]
    (problem : SProblem σ α)
    (hstart : problem.is_goal_state problem.start = false) :
    BFSInv problem [Node.init problem.start none none 0] [] := by
  have hroot : NGNode problem (Node.init problem.start none none 0) := by
    refine ⟨rfl, ?_, rfl, rfl⟩
    show allNonGoal problem problem.start [] = true
    rw [allNonGoal, hstart]
    rfl
  refine ⟨?_, ?_, ?_, hstart, ?_, ?_, ?_, ?_, ?_, ?_⟩
  · intro n hn
    rcases List.mem_cons.mp hn with h1 | h1
    · rw [h1]
      exact hroot
    · exact absurd h1 (List.not_mem_nil _)
  · simp
  · intro hd hhd n hn
    injection hhd with hhd2
    rcases List.mem_cons.mp hn with h1 | h1
    · rw [h1, ← hhd2]
      exact Nat.le_succ _
    · exact absurd h1 (List.not_mem_nil _)
  · intro s hs
    exact absurd hs (List.not_mem_nil _)
  · intro s k hreach hk11 hhd
    have hk0 : k ≤ 0 := hhd _ rfl
    right
    rw [NGReach_zero problem s (by rw [Nat.le_zero.mp hk0] at hreach; exact hreach)]
    exact List.mem_map.mpr ⟨_, List.mem_cons_self _ _, rfl⟩
  · intro s k hreach hk10 hhd
    exact absurd (hhd _ rfl) (Nat.not_lt_zero k)
  · intro n hn k s hreach hst
    rcases List.mem_cons.mp hn with h1 | h1
    · rw [h1]
      exact Nat.zero_le _
    · exact absurd h1 (List.not_mem_nil _)
  · intro s hs
    exact absurd hs (List.not_mem_nil _)
  · intro s hs
    exact absurd hs (List.not_mem_nil _)

/-- **C2.** For every search problem, whenever `breadth_first_search` returns
a path rather than failure or cutoff, the returned path's actions form a legal
sequence from the start state to a goal state, and the number of actions is
minimal among all action sequences leading from the start state to a goal
state (a shortest solution by edge count). -/
theorem C2_bfs_shortest {σ α : Type} [DecidableEq σ] [DecidableEq α]
    (problem : SProblem σ α) (fuel : Nat) (l : List (Node σ α))
    (h : breadth_first_search problem fuel = SearchRes.path l) :
    LeadsToGoal problem (pathActions l) ∧
    ∀ acts : List α, LeadsToGoal problem acts →
      (pathActions l).length ≤ acts.length := by
  rw [breadth_first_search] at h
  split at h
  · next hgoal =>
    injection h with h2
    have hpa : pathActions l = ([] : List α) := by
      rw [← h2]
      rfl
    rw [hpa]
    constructor
    · exact ⟨rfl, hgoal⟩
    · intro acts _
      simp
  · next hgoal =>
    have hstart : problem.is_goal_state problem.start = false := by
      simp only [Bool.not_eq_true] at hgoal
      exact hgoal
    exact bfsLoop_minimal problem fuel [Node.init problem.start none none 0] [] l
      (BFSInv_init problem hstart) h

/-- Concrete instantiation of `C2_bfs_shortest`: on the one-move-from-goal
8-puzzle instance, BFS returns a path that is legal, reaches the goal, and is
at least as short as every goal-reaching action sequence. -/
theorem C2_bfs_shortest_witness :
    LeadsToGoal puzzleEasy
      (pathActions (resNodes (breadth_first_search puzzleEasy 5))) ∧
    ∀ acts : List Puzzle.Act, LeadsToGoal puzzleEasy acts →
      (pathActions (resNodes (breadth_first_search puzzleEasy 5))).length ≤
        acts.length :=
  C2_bfs_shortest puzzleEasy 5 (resNodes (breadth_first_search puzzleEasy 5)) rfl
